import Mathlib

/-!
Verification development for the ClarityCV ATS optimization pipeline.

Shallow embedding of the core text-processing slice of the repository:
`src/lib/ats-optimizer.ts`, `src/lib/parsers/pdf-parser.ts` and
`src/lib/templates/template-engine.ts`.

JS strings are modelled as `List Char` (sequences of code points).  Case
mapping (`toLowerCase`/`toUpperCase`) is modelled with Lean's ASCII
`Char.toLower`/`Char.toUpper`, which agrees with JS on the ASCII range the
source's regexes and taxonomy labels live in.  Each JS regex replacement used
by the source is translated to an explicit executable scanner with the same
matching semantics (left-to-right scan, greedy character classes, `m`-flag
line anchors where the source uses them).
-/

namespace ClarityCV

/-- JS strings, modelled as lists of code points. -/
abbrev Str := List Char

/-- JS `\s` / `String.trim` whitespace, restricted to the code points that
actually occur in this pipeline (space, tab, LF, CR, VT, FF). -/
def isWS (c : Char) : Bool :=
  c.toNat = 32 ∨ c.toNat = 9 ∨ c.toNat = 10 ∨ c.toNat = 13 ∨ c.toNat = 11 ∨ c.toNat = 12

/-- JS line terminators recognized by the `m`-flag `^` anchor (the pipeline
only ever contains LF and CR). -/
def isLineTerm (c : Char) : Bool := c = '\n' ∨ c = '\r'

/-- `String.prototype.toLowerCase`, ASCII range. -/
def jsLower (l : Str) : Str := l.map Char.toLower

/-- `String.prototype.toUpperCase`, ASCII range. -/
def jsUpper (l : Str) : Str := l.map Char.toUpper

/-- Drop leading JS whitespace. -/
def trimL (l : Str) : Str := l.dropWhile isWS

/-- Drop trailing JS whitespace. -/
def trimR (l : Str) : Str := (l.reverse.dropWhile isWS).reverse

/-- `String.prototype.trim`. -/
def jsTrim (l : Str) : Str := trimL (trimR l)

/-- `String.prototype.split(sep)` for a single-character separator.
Always returns a non-empty list of separator-free pieces. -/
def splitOnChar (sep : Char) : Str → List Str
  | [] => [[]]
  | c :: rest =>
    match splitOnChar sep rest with
    | [] => if c = sep then [[], []] else [[c]]
    | h :: t => if c = sep then [] :: h :: t else (c :: h) :: t

/-- `Array.prototype.join(sep)` for single-character separators. -/
def joinWith (sep : Char) (ls : List Str) : Str := List.intercalate [sep] ls

/-- `String.prototype.replace(pat, rep)` with a plain-string pattern:
replaces the first occurrence of `pat` (the whole string is returned
unchanged when `pat` does not occur). -/
def replaceFirst : Str → Str → Str → Str
  | [], pat, rep => if pat = [] then rep else []
  | c :: rest, pat, rep =>
    if pat.isPrefixOf (c :: rest) then rep ++ (c :: rest).drop pat.length
    else c :: replaceFirst rest pat rep

/-! ### Global regex replacements used by the source, as explicit scanners -/

/-- `.replace(/\n{3,}/g, '\n\n')`: each maximal run of `≥ 3` newlines becomes
exactly two.  `seen` is the number of newlines already emitted for the
current run. -/
def collapseNLGo (seen : Nat) : Str → Str
  | [] => []
  | c :: rest =>
    if c = '\n' then
      if seen ≥ 2 then collapseNLGo seen rest else '\n' :: collapseNLGo (seen + 1) rest
    else c :: collapseNLGo 0 rest

def collapseNL (l : Str) : Str := collapseNLGo 0 l

/-- Character class `[ \t]`. -/
def isSpaceTab (c : Char) : Bool := c = ' ' ∨ c = '\t'

/-- Emit a finished `[ \t]` run: runs of length `≥ 2` collapse to one space,
a lone space or tab is kept as written. -/
def emitSTRun (run : Str) : Str := if run.length ≥ 2 then [' '] else run

/-- `.replace(/[ \t]{2,}/g, ' ')`.  `run` holds the pending space/tab run. -/
def collapseSTGo (run : Str) : Str → Str
  | [] => emitSTRun run
  | c :: rest =>
    if isSpaceTab c then collapseSTGo (run ++ [c]) rest
    else emitSTRun run ++ c :: collapseSTGo [] rest

def collapseST (l : Str) : Str := collapseSTGo [] l

/-- `.replace(/\t+/g, ' ')`: each maximal run of tabs becomes one space.
`inRun` records whether the previous character was a tab. -/
def tabsGo (inRun : Bool) : Str → Str
  | [] => []
  | c :: rest =>
    if c = '\t' then
      if inRun then tabsGo true rest else ' ' :: tabsGo true rest
    else c :: tabsGo false rest

def tabRunsToSpaces (l : Str) : Str := tabsGo false l

/-- `.replace(/(p)(q)/g, '$1 $2')` for single-character classes `p`, `q`:
inserts a space between each matched adjacent pair; the scan resumes after
the pair, exactly as the JS global replace does. -/
def insertPairSp (p q : Char → Bool) : Str → Str
  | [] => []
  | [c] => [c]
  | c :: d :: rest =>
    if p c ∧ q d then c :: ' ' :: d :: insertPairSp p q rest
    else c :: insertPairSp p q (d :: rest)

/-- ASCII `[a-z]`. -/
def isAsciiLower (c : Char) : Bool := 'a' ≤ c ∧ c ≤ 'z'

/-- ASCII `[A-Z]`. -/
def isAsciiUpper (c : Char) : Bool := 'A' ≤ c ∧ c ≤ 'Z'

/-- ASCII `[A-Za-z]`. -/
def isAsciiAlpha (c : Char) : Bool := isAsciiLower c ∨ isAsciiUpper c

/-- ASCII `\d`. -/
def isAsciiDigit (c : Char) : Bool := '0' ≤ c ∧ c ≤ '9'

/-!
Anchored bullet-run rewriting.  The optimizer uses
`/^[\s]*[•·▪▫■□‣⁃○◦]\s*/gm` and the PDF cleaner uses `/^\s*[○◦‣⁃]\s*/gm`,
both replaced by `'• '`; the template engine uses `/^[•\-\*]\s/gm` replaced
by the template's bullet glyph plus a space.  All three are left-to-right
scans in which a match may start only at a position where the multiline `^`
anchor holds (offset 0 or right after a line terminator).
-/

/-- Try the pattern `[\s]*B\s*` (leading whitespace, one bullet-class
character, trailing whitespace) at the head of `l`.  On success returns the
remainder of the string and whether the last consumed character was a line
terminator (which decides the `^` anchor at the resume position). -/
def tryBulletAt (bcls : Char → Bool) (l : Str) : Option (Str × Bool) :=
  match l.drop (l.takeWhile isWS).length with
  | [] => none
  | b :: rest2 =>
    if bcls b then
      some (rest2.drop (rest2.takeWhile isWS).length,
            match (rest2.takeWhile isWS).getLast? with
            | some c => isLineTerm c
            | none => isLineTerm b)
    else none

/-- One fuel-indexed step of the anchored global replace; `fuel` bounds the
number of scanned positions (any `fuel ≥ l.length` is exact). -/
def bulletScanGo (bcls : Char → Bool) (rep : Str) : Nat → Bool → Str → Str
  | 0, _, l => l
  | _ + 1, _, [] => []
  | fuel + 1, atLS, c :: rest =>
    if atLS then
      match tryBulletAt bcls (c :: rest) with
      | some (rest2, lt) => rep ++ bulletScanGo bcls rep fuel lt rest2
      | none => c :: bulletScanGo bcls rep fuel (isLineTerm c) rest
    else c :: bulletScanGo bcls rep fuel (isLineTerm c) rest

/-- Anchored global replace `/^[\s]*B\s*/gm → rep`. -/
def bulletScan (bcls : Char → Bool) (rep : Str) (l : Str) : Str :=
  bulletScanGo bcls rep (l.length + 1) true l

/-- Whether `/^[\s]*B\s*/gm` has any match (`RegExp.test` on a fresh regex). -/
def bulletTestGo (bcls : Char → Bool) : Nat → Bool → Str → Bool
  | 0, _, _ => false
  | _ + 1, _, [] => false
  | fuel + 1, atLS, c :: rest =>
    if atLS then
      match tryBulletAt bcls (c :: rest) with
      | some _ => true
      | none => bulletTestGo bcls fuel (isLineTerm c) rest
    else bulletTestGo bcls fuel (isLineTerm c) rest

def bulletTest (bcls : Char → Bool) (l : Str) : Bool :=
  bulletTestGo bcls (l.length + 1) true l

/-- Bullet class of the optimizer's `bulletPattern` `[•·▪▫■□‣⁃○◦]`. -/
def optBulletChar (c : Char) : Bool :=
  c = '•' ∨ c = '·' ∨ c = '▪' ∨ c = '▫' ∨ c = '■' ∨ c = '□' ∨ c = '‣' ∨ c = '⁃' ∨
  c = '○' ∨ c = '◦'

/-- Bullet class of the PDF cleaner's second bullet pass `[○◦‣⁃]`. -/
def pdfBulletChar (c : Char) : Bool := c = '○' ∨ c = '◦' ∨ c = '‣' ∨ c = '⁃'

/-- Character class of the PDF cleaner's first bullet pass `[•·▪▫■□‣⁃]`. -/
def pdfBulletMapChar (c : Char) : Bool :=
  c = '•' ∨ c = '·' ∨ c = '▪' ∨ c = '▫' ∨ c = '■' ∨ c = '□' ∨ c = '‣' ∨ c = '⁃'

/-! ### `cleanPDFText` (src/lib/parsers/pdf-parser.ts) -/

/-- Character class `[\u0000-\u001F\u007F-\u009F]` of the control-character
strip in `cleanPDFText`.  Note that this range contains `\n` (U+000A) and
`\t` (U+0009), although the source comment claims they are excepted. -/
def isCtlStrip (c : Char) : Bool :=
  c.toNat ≤ 0x1F ∨ (0x7F ≤ c.toNat ∧ c.toNat ≤ 0x9F)

/-- `.replace(/\r\n/g, '\n')`. -/
def crlfToLF : Str → Str
  | [] => []
  | '\r' :: '\n' :: rest => '\n' :: crlfToLF rest
  | c :: rest => c :: crlfToLF rest

/-- Line test for `/^\s*Page\s+\d+\s*$/gim` (applied per line; at this point
of the cleaner the text contains no line terminators, so the per-line view
coincides with the multiline regex). -/
def isPageNumLine (l : Str) : Bool :=
  let t1 := l.dropWhile isWS
  match t1 with
  | p :: a :: g :: e :: r1 =>
    if p.toLower = 'p' ∧ a.toLower = 'a' ∧ g.toLower = 'g' ∧ e.toLower = 'e' then
      let ws := r1.takeWhile isWS
      let r2 := r1.drop ws.length
      let ds := r2.takeWhile isAsciiDigit
      ws ≠ [] ∧ ds ≠ [] ∧ (r2.drop ds.length).all isWS
    else false
  | _ => false

/-- Line test for `/^\s*\d+\s*$/gm` (standalone-number lines). -/
def isNumLine (l : Str) : Bool :=
  let t := l.dropWhile isWS
  let ds := t.takeWhile isAsciiDigit
  ds ≠ [] ∧ (t.drop ds.length).all isWS

/-- Apply a full-line erasure (`'' ` replacement of a `/^...$/gm` match) to
every line of the text. -/
def eraseLines (p : Str → Bool) (l : Str) : Str :=
  joinWith '\n' ((splitOnChar '\n' l).map fun x => if p x then [] else x)

/-- `cleanPDFText`: normalizes raw extracted PDF text, step for step as the
source does (line-ending unification, newline/whitespace collapsing,
form-feed conversion, control-character strip, extraction-artifact spacing,
bullet canonicalization, page-number removal, per-line trim). -/
def cleanPDFText (rawText : Str) : Str :=
  let s1 := crlfToLF rawText
  let s2 := s1.map fun c => if c = '\r' then '\n' else c
  let s3 := collapseNL s2
  let s4 := collapseST s3
  let s5 := s4.map fun c => if c = '\x0c' then '\n' else c
  let s6 := s5.filter fun c => ¬ isCtlStrip c
  let s7 := insertPairSp isAsciiLower isAsciiUpper s6
  let s8 := insertPairSp isAsciiDigit isAsciiAlpha s7
  let s9 := insertPairSp isAsciiAlpha isAsciiDigit s8
  let s10 := s9.map fun c => if pdfBulletMapChar c then '•' else c
  let s11 := bulletScan pdfBulletChar "• ".data s10
  let s12 := eraseLines isPageNumLine s11
  let s13 := eraseLines isNumLine s12
  let s14 := joinWith '\n' ((splitOnChar '\n' s13).map jsTrim)
  let s15 := s14.dropWhile (· = '\n')
  (s15.reverse.dropWhile (· = '\n')).reverse

/-- `countWords` (pdf-parser and ats-optimizer share this definition):
`text.trim().split(/\s+/).filter(w => w.length > 0).length`.
`inTok` records whether the scan is inside a token. -/
def tokGo (inTok : Bool) : Str → Nat
  | [] => 0
  | c :: rest =>
    if isWS c then tokGo false rest
    else if inTok then tokGo true rest
    else 1 + tokGo true rest

def countWords (text : Str) : Nat :=
  if jsTrim text = [] then 0 else tokGo false (jsTrim text)

/-! ### Email detection (`validateATSCompliance`)

`/\b[A-Za-z0-9._%+-]+@[A-Za-z0-9.-]+\.[A-Z|a-z]{2,}\b/.test(text)`:
existence of a match anywhere in the text.  `RegExp.test` succeeds iff some
position admits a decomposition into the pattern's pieces, so the scanners
below check all decompositions. -/

/-- JS `\w` (ASCII word character), used by the `\b` boundary. -/
def isWordChar (c : Char) : Bool := isAsciiAlpha c ∨ isAsciiDigit c ∨ c = '_'

/-- Class `[A-Za-z0-9._%+-]` (local part). -/
def isLocalChar (c : Char) : Bool :=
  isAsciiAlpha c ∨ isAsciiDigit c ∨ c = '.' ∨ c = '_' ∨ c = '%' ∨ c = '+' ∨ c = '-'

/-- Class `[A-Za-z0-9.-]` (domain part). -/
def isDomainChar (c : Char) : Bool :=
  isAsciiAlpha c ∨ isAsciiDigit c ∨ c = '.' ∨ c = '-'

/-- Class `[A-Z|a-z]` (TLD part; the source's class literally contains a
pipe character). -/
def isTldChar (c : Char) : Bool := isAsciiAlpha c ∨ c = '|'

/-- Word-boundary `\b` between a last consumed character and the rest. -/
def boundaryAfter (prev : Char) (l : Str) : Bool :=
  match l with
  | [] => isWordChar prev
  | c :: _ => isWordChar prev ≠ isWordChar c

/-- After `≥ 2` TLD characters ending at `prev`: accept here if `\b` holds,
or extend the TLD run. -/
def tldExt (prev : Char) : Str → Bool
  | [] => boundaryAfter prev []
  | c :: rest =>
    boundaryAfter prev (c :: rest) ∨ (isTldChar c ∧ tldExt c rest)

/-- `[A-Z|a-z]{2,}\b` at the head of `l`. -/
def tldMatch : Str → Bool
  | c1 :: c2 :: rest => isTldChar c1 ∧ isTldChar c2 ∧ tldExt c2 rest
  | _ => false

/-- After at least one domain character: `\.[A-Z|a-z]{2,}\b` here, or one
more domain character and recurse. -/
def domRest : Str → Bool
  | [] => false
  | c :: rest => (c = '.' ∧ tldMatch rest) ∨ (isDomainChar c ∧ domRest rest)

/-- `[A-Za-z0-9.-]+\.[A-Z|a-z]{2,}\b` at the head of `l`. -/
def domMatch : Str → Bool
  | [] => false
  | c :: rest => isDomainChar c ∧ domRest rest

/-- Word-boundary `\b` before the first matched character `c`, where `prev`
is the character preceding the match position (if any). -/
def boundaryBefore (prev : Option Char) (c : Char) : Bool :=
  match prev with
  | none => true
  | some p => isWordChar p ≠ isWordChar c

/-- `@[A-Za-z0-9.-]+\.[A-Z|a-z]{2,}\b` at the head of `l`. -/
def atDomMatch : Str → Bool
  | '@' :: rest => domMatch rest
  | _ => false

/-- Full pattern at the head of `l`, where `prev` is the character before
`l` (if any), used by the leading `\b`. -/
def emailAt (prev : Option Char) (l : Str) : Bool :=
  match l with
  | [] => false
  | c :: _ =>
    boundaryBefore prev c ∧
    (l.takeWhile isLocalChar ≠ [] ∧ atDomMatch (l.drop (l.takeWhile isLocalChar).length))

def emailTestGo (prev : Option Char) : Str → Bool
  | [] => false
  | c :: rest => emailAt prev (c :: rest) ∨ emailTestGo (some c) rest

/-- `emailPattern.test(text)`. -/
def emailTest (text : Str) : Bool := emailTestGo none text

/-! ### Data model (src/lib/ats-optimizer.ts) -/

inductive OptType where
  | heading_standardized
  | formatting_cleaned
  | structure_improved
  | content_enhanced
deriving DecidableEq, Repr

structure OptimizationResult where
  type : OptType
  description : Str
  beforeSample : Option Str := none
  afterSample : Option Str := none
deriving DecidableEq, Repr

structure DetectedSection where
  title : Str
  standardTitle : Str
  content : Str
  startIndex : Nat
  endIndex : Nat
  confidence : ℚ
deriving DecidableEq, Repr

structure DocMetadata where
  pages : Nat
  wordCount : Nat
deriving DecidableEq, Repr

inductive SourceKind where
  | pdf
  | docx
deriving DecidableEq, Repr

/-- `ParsedDocument` (the fields the optimizer reads; the optional PDF
metadata strings are irrelevant to every stage modelled here). -/
structure ParsedDocument where
  text : Str
  metadata : DocMetadata
  source : SourceKind
deriving DecidableEq, Repr

structure ATSStatistics where
  originalWordCount : Nat
  optimizedWordCount : Nat
  sectionsStandardized : Nat
  issuesFixed : Nat
deriving DecidableEq, Repr

structure ATSOptimizedDocument where
  content : Str
  sections : List DetectedSection
  optimizations : List OptimizationResult
  statistics : ATSStatistics
  warnings : List Str
deriving DecidableEq, Repr

/-- `STANDARD_SECTIONS`, in declaration order (`Object.entries` preserves
string-key insertion order). -/
def stdSections : List (String × Str) :=
  [("PERSONAL_INFO", "Contact Information".data),
   ("PROFESSIONAL_SUMMARY", "Professional Summary".data),
   ("WORK_EXPERIENCE", "Work Experience".data),
   ("EDUCATION", "Education".data),
   ("SKILLS", "Skills".data),
   ("CERTIFICATIONS", "Certifications".data),
   ("PROJECTS", "Projects".data),
   ("VOLUNTEER", "Volunteer Experience".data),
   ("AWARDS", "Awards and Honors".data),
   ("PUBLICATIONS", "Publications".data),
   ("LANGUAGES", "Languages".data),
   ("INTERESTS", "Additional Information".data)]

/-- One regex of `SECTION_PATTERNS`: an anchored case-insensitive
alternation `^(w₁\s+w₂...|...)$/i`, given as the list of alternatives, each
a list of literal lowercase words separated by `\s+` in the pattern. -/
abbrev SectionPattern := List (List Str)

/-- Consume `word` case-insensitively at the head of `l`; returns the rest. -/
def eatWord : Str → Str → Option Str
  | [], l => some l
  | _ :: _, [] => none
  | w :: ws, c :: l => if c.toLower = w then eatWord ws l else none

/-- Match one alternative `w₁\s+w₂\s+...\s+wₙ` against the whole of `l`
(the words contain no whitespace, so the greedy `\s+` runs are exactly the
maximal whitespace runs between them). -/
def matchSeq : List Str → Str → Bool
  | [], l => l = []
  | [w], l =>
    match eatWord w l with
    | some rest => rest = []
    | none => false
  | w :: w2 :: ws, l =>
    match eatWord w l with
    | some rest => rest.takeWhile isWS ≠ [] ∧ matchSeq (w2 :: ws) (rest.dropWhile isWS)
    | none => false

/-- `pattern.test(s)` for one `SECTION_PATTERNS` regex. -/
def patTest (p : SectionPattern) (s : Str) : Bool := p.any fun alt => matchSeq alt s

/-- Split a string on single spaces into its `\s+`-free words (helper for
writing the pattern tables below). -/
def pwords (s : String) : List Str := (splitOnChar ' ' s.data).filter (· ≠ [])

/-- `SECTION_PATTERNS`, in declaration order; each entry holds the one
regex the source declares for that key. -/
def sectionPatterns : List (String × SectionPattern) :=
  [("PERSONAL_INFO",
    [pwords "contact information", pwords "personal information", pwords "contact",
     pwords "contact details", pwords "personal details"]),
   ("PROFESSIONAL_SUMMARY",
    [pwords "professional summary", pwords "summary", pwords "profile", pwords "objective",
     pwords "career objective", pwords "personal statement", pwords "about me",
     pwords "overview"]),
   ("WORK_EXPERIENCE",
    [pwords "work experience", pwords "professional experience", pwords "employment",
     pwords "career history", pwords "experience", pwords "work history",
     pwords "professional background", pwords "my professional journey"]),
   ("EDUCATION",
    [pwords "education", pwords "academic background", pwords "qualifications",
     pwords "academic qualifications", pwords "educational background"]),
   ("SKILLS",
    [pwords "skills", pwords "technical skills", pwords "core competencies",
     pwords "competencies", pwords "expertise", pwords "abilities", pwords "proficiencies",
     pwords "key skills"]),
   ("CERTIFICATIONS",
    [pwords "certifications", pwords "certificates", pwords "professional certifications",
     pwords "licenses", pwords "credentials"]),
   ("PROJECTS",
    [pwords "projects", pwords "key projects", pwords "notable projects",
     pwords "project experience", pwords "portfolio"]),
   ("VOLUNTEER",
    [pwords "volunteer", pwords "volunteer experience", pwords "community service",
     pwords "volunteer work", pwords "community involvement"]),
   ("AWARDS",
    [pwords "awards", pwords "honors", pwords "achievements", pwords "recognition",
     pwords "accomplishments", pwords "awards and honors"]),
   ("PUBLICATIONS",
    [pwords "publications", pwords "research", pwords "papers", pwords "articles",
     pwords "published work"]),
   ("LANGUAGES",
    [pwords "languages", pwords "language skills", pwords "linguistic abilities"]),
   ("INTERESTS",
    [pwords "interests", pwords "hobbies", pwords "additional information",
     pwords "personal interests", pwords "other", pwords "miscellaneous"])]

/-- The word lists of the three generic `headingPatterns` prefix regexes
`/^(...)/i` in `isLikelyHeading`. -/
def headingPrefixWords : List Str :=
  ["professional".data, "work".data, "career".data, "education".data, "skills".data,
   "experience".data, "projects".data, "certifications".data,
   "summary".data, "objective".data, "profile".data, "background".data, "history".data,
   "qualifications".data,
   "awards".data, "honors".data, "achievements".data, "publications".data,
   "languages".data, "interests".data]

/-- `isLikelyHeading`: short line, no trailing `.`/`,`, and all-caps or
title-case or one of the generic heading-prefix patterns. -/
def isLikelyHeading (line : Str) : Bool :=
  if line = [] then false
  else if line.length > 50 then false
  else if line.getLast? = some '.' ∨ line.getLast? = some ',' then false
  else
    let isAllCaps := jsUpper line = line ∧ jsLower line ≠ line
    let isTitleCase := (splitOnChar ' ' line).all fun w =>
      match w with
      | [] => true
      | c :: _ => c.toUpper = c
    if isAllCaps ∨ isTitleCase then true
    else headingPrefixWords.any fun w => w.isPrefixOf (jsLower line)

/-- `matchSectionPattern`: first taxonomy key whose pattern matches the
lowercased, trimmed heading. -/
def matchSectionPattern (heading : Str) : Option String :=
  let cleanHeading := jsTrim (jsLower heading)
  sectionPatterns.findSome? fun e =>
    if (e.2 : SectionPattern).any (fun alt => matchSeq alt cleanHeading) then some e.1
    else none

/-- `calculateConfidence`: max over the matched key's patterns of `1.0` for
a case-insensitive exact match with the canonical label, `0.8` otherwise. -/
def calculateConfidence (originalHeading : Str) (matchedSection : String) : ℚ :=
  let patterns := ((sectionPatterns.lookup matchedSection).getD [])
  let cleanHeading := jsTrim (jsLower originalHeading)
  patterns.foldl
    (fun maxConfidence alt =>
      if matchSeq alt cleanHeading then
        if cleanHeading = jsLower ((stdSections.lookup matchedSection).getD []) then
          max maxConfidence 1
        else max maxConfidence (mkRat 4 5)
      else maxConfidence)
    0

/-- The classifier's inner loop: scan lines from index `i`, emitting a
section for every trimmed non-empty heading-candidate line that matches a
taxonomy pattern; the section body runs to the next heading candidate. -/
def detectGo (i : Nat) : List Str → List DetectedSection
  | [] => []
  | line :: rest =>
    let t := jsTrim line
    if t = [] then detectGo (i + 1) rest
    else if isLikelyHeading t then
      match matchSectionPattern t with
      | some key =>
        let body := rest.takeWhile fun l => ¬ isLikelyHeading (jsTrim l)
        { title := t
          standardTitle := (stdSections.lookup key).getD []
          content := jsTrim (joinWith '\n' body)
          startIndex := i
          endIndex := i + body.length
          confidence := calculateConfidence t key } :: detectGo (i + 1) rest
      | none => detectGo (i + 1) rest
    else detectGo (i + 1) rest

/-- `detectSections`. -/
def detectSections (text : Str) : List DetectedSection :=
  detectGo 0 (splitOnChar '\n' text)

/-! ### Optimizer stages (src/lib/ats-optimizer.ts)

Each stage takes the current text and the accumulated `optimizations` log
(the source mutates a shared array; modelled as explicit state passing). -/

/-- `applyStructuralOptimizations`: newline/whitespace collapsing with a
`formatting_cleaned` record when the length changed, then bullet
canonicalization with a `formatting_cleaned` record when the bullet pattern
matched. -/
def applyStructuralOptimizations (text : Str) (optimizations : List OptimizationResult) :
    Str × List OptimizationResult :=
  let optimized := collapseST (collapseNL text)
  let opts1 :=
    if optimized.length ≠ text.length then
      optimizations ++
        [{ type := .formatting_cleaned
           description := "Removed excessive whitespace and normalized line breaks".data }]
    else optimizations
  if bulletTest optBulletChar optimized then
    (bulletScan optBulletChar "• ".data optimized,
     opts1 ++
       [{ type := .formatting_cleaned
          description := "Standardized bullet points to simple round bullets".data }])
  else (optimized, opts1)

/-- The `heading_standardized` record pushed for one rewritten section. -/
def headingRecord (s : DetectedSection) : OptimizationResult :=
  { type := .heading_standardized
    description := "Standardized section heading for better ATS recognition".data
    beforeSample := some s.title
    afterSample := some s.standardTitle }

/-- `standardizeSectionHeadings`: iterate the sections from last to first;
for each whose title differs from its standard title, `String.replace` the
title (first occurrence in the whole content) and push a record. -/
def standardizeSectionHeadings (text : Str) (sections : List DetectedSection)
    (optimizations : List OptimizationResult) : Str × List OptimizationResult :=
  sections.reverse.foldl
    (fun acc s =>
      if s.title ≠ s.standardTitle then
        (replaceFirst acc.1 s.title s.standardTitle, acc.2 ++ [headingRecord s])
      else acc)
    (text, optimizations)

/-- Character class of `cleanFormatting`'s `specialChars` test
`[""''‚„…–—]` (left/right curly double and single quotes, low-9 quotes,
ellipsis, en and em dash). -/
def isSpecialChar (c : Char) : Bool :=
  c = '“' ∨ c = '”' ∨ c = '‘' ∨ c = '’' ∨ c = '‚' ∨
  c = '„' ∨ c = '…' ∨ c = '–' ∨ c = '—'

/-- The four replacement passes of `cleanFormatting` (the low-9 double
quote `„` is tested but never replaced, exactly as in the source). -/
def cleanFormattingMap (l : Str) : Str :=
  let q1 := l.map fun c => if c = '“' ∨ c = '”' then '"' else c
  let q2 := q1.map fun c => if c = '‘' ∨ c = '’' ∨ c = '‚' then '\'' else c
  let q3 := q2.flatMap fun c => if c = '…' then "...".data else [c]
  q3.map fun c => if c = '–' ∨ c = '—' then '-' else c

/-- `cleanFormatting`. -/
def cleanFormatting (text : Str) (optimizations : List OptimizationResult) :
    Str × List OptimizationResult :=
  if text.any isSpecialChar then
    (cleanFormattingMap text,
     optimizations ++
       [{ type := .formatting_cleaned
          description := "Replaced special characters with ATS-friendly alternatives".data }])
  else (text, optimizations)

/-- `ensureSingleColumnLayout`: if `/\t+/` matches, replace every tab run
by one space and push a `structure_improved` record. -/
def ensureSingleColumnLayout (text : Str) (optimizations : List OptimizationResult) :
    Str × List OptimizationResult :=
  if text.contains '\t' then
    (tabRunsToSpaces text,
     optimizations ++
       [{ type := .structure_improved
          description := "Converted table structures to linear text for ATS compatibility".data }])
  else (text, optimizations)

/-- The warning strings of `validateATSCompliance`. -/
def shortContentWarning : Str :=
  "Resume appears very short. Consider adding more detail to improve ATS scoring.".data

def missingSectionWarning (label : Str) : Str :=
  "Missing essential section: ".data ++ label

def noEmailWarning : Str :=
  "No email address detected. Ensure contact information is included.".data

/-- `sections.map(s => Object.entries(STANDARD_SECTIONS).find(e => e[1] ===
s.standardTitle)?.[0]).filter(Boolean)`. -/
def detectedSectionTypes (sections : List DetectedSection) : List String :=
  sections.filterMap fun s =>
    (stdSections.find? fun e => e.2 = s.standardTitle).map (·.1)

/-- `essentialSections` in the source: note `Education`, not
`Professional Summary`, is the second essential kind. -/
def essentialSections : List String := ["WORK_EXPERIENCE", "EDUCATION"]

/-- `validateATSCompliance`: short-content check, then missing essential
sections (in declaration order), then email check; warnings only, in push
order. -/
def validateATSCompliance (text : Str) (sections : List DetectedSection) : List Str :=
  (if countWords text < 100 then [shortContentWarning] else []) ++
  ((essentialSections.filter fun k => ¬ (detectedSectionTypes sections).contains k).map
    fun k => missingSectionWarning ((stdSections.lookup k).getD [])) ++
  (if emailTest text then [] else [noEmailWarning])

/-- `optimizeForATS`: the full optimization pipeline. -/
def optimizeForATS (parsedDocument : ParsedDocument) : ATSOptimizedDocument :=
  let sections := detectSections parsedDocument.text
  let step2 := applyStructuralOptimizations parsedDocument.text []
  let step3 := standardizeSectionHeadings step2.1 sections step2.2
  let step4 := cleanFormatting step3.1 step3.2
  let step5 := ensureSingleColumnLayout step4.1 step4.2
  let warnings := validateATSCompliance step5.1 sections
  { content := step5.1
    sections := sections
    optimizations := step5.2
    statistics :=
      { originalWordCount := parsedDocument.metadata.wordCount
        optimizedWordCount := countWords step5.1
        sectionsStandardized :=
          (step5.2.filter fun o => o.type = .heading_standardized).length
        issuesFixed := step5.2.length }
    warnings := warnings }

/-! ### `parsePDF`'s post-extraction core (src/lib/parsers/pdf-parser.ts)

`parsePDF` concatenates the page texts into `allText`, throws a
`FILE_CORRUPTED` upload error when `allText` is empty or whitespace-only,
and otherwise returns the document built from `cleanPDFText(allText)`.
The binary PDF decoding itself is an external collaborator; the pure logic
from the emptiness check onward is modelled here. -/

inductive UploadErrorCode where
  | fileReadError
  | fileCorrupted
  | processingError
deriving DecidableEq, Repr

/-- The emptiness check and cleaning step of `parsePDF`, as a function of
the concatenated extracted text. -/
def parsePDFCore (allText : Str) : Except UploadErrorCode Str :=
  if allText = [] ∨ jsTrim allText = [] then .error .fileCorrupted
  else .ok (cleanPDFText allText)

/-! ### Template engine (src/lib/templates/template-engine.ts) -/

/-- `TemplateFormatting` (the fields the engine's rendering path reads:
bullet glyph, divider flag, line height, section spacing; fonts, colors and
margins only feed the external DOCX writer). -/
structure TemplateFormatting where
  bullets : Str
  dividers : Bool
  lineHeight : ℚ
  sectionSpacing : ℚ
deriving DecidableEq, Repr

/-- `ResumeTemplate` (the fields the engine reads). -/
structure ResumeTemplate where
  sectionOrder : List Str
  formatting : TemplateFormatting
deriving DecidableEq, Repr

structure TemplatedSection where
  id : Str
  title : Str
  content : Str
  order : Nat
  formatted : Bool
deriving DecidableEq, Repr

structure TemplatedMetadata where
  wordCount : Nat
  sectionCount : Nat
  appliedAt : Nat
deriving DecidableEq, Repr

structure TemplatedDocument where
  content : Str
  template : ResumeTemplate
  sections : List TemplatedSection
  formatting : TemplateFormatting
  metadata : TemplatedMetadata
deriving DecidableEq, Repr

/-- `remainingSections.find(pred)` followed by `indexOf`/`splice`: returns
the first element satisfying `p` together with the list with that
occurrence removed. -/
def findRemove (p : α → Bool) : List α → Option (α × List α)
  | [] => none
  | x :: xs =>
    if p x then some (x, xs)
    else (findRemove p xs).map fun r => (r.1, x :: r.2)

/-- `String.prototype.includes`: contiguous substring test. -/
def strIncludes : Str → Str → Bool
  | hay, pat =>
    if pat.isPrefixOf hay then true
    else
      match hay with
      | [] => false
      | _ :: t => strIncludes t pat

/-- The slot-matching predicate of `reorderSections`: standard title equals
the slot, or the original title case-insensitively contains the slot. -/
def slotMatches (templateSection : Str) (s : DetectedSection) : Bool :=
  s.standardTitle = templateSection ∨
  strIncludes (jsLower s.title) (jsLower templateSection)

/-- `reorderSections`: place sections slot by slot, then append the
remaining sections in original order. -/
def reorderGo : List Str → List DetectedSection → List DetectedSection
  | [], remaining => remaining
  | slot :: slots, remaining =>
    match findRemove (slotMatches slot) remaining with
    | some r => r.1 :: reorderGo slots r.2
    | none => reorderGo slots remaining

def reorderSections (sections : List DetectedSection) (templateOrder : List Str) :
    List DetectedSection :=
  reorderGo templateOrder sections

/-- `.replace(/\n/g, '\n\n')` (line-spacing expansion). -/
def doubleNL (l : Str) : Str :=
  l.flatMap fun c => if c = '\n' then ['\n', '\n'] else [c]

/-- One scan step of `.replace(/\n\s*\n\s*\n/g, '\n\n')`: a match starts at
a newline whose following whitespace block contains two more newlines; the
greedy `\s*` runs extend the match through the last newline of the block. -/
def tripleNLGo : Nat → Str → Str
  | 0, l => l
  | _ + 1, [] => []
  | fuel + 1, c :: rest =>
    if c = '\n' then
      let run := rest.takeWhile isWS
      if 2 ≤ run.count '\n' then
        '\n' :: '\n' ::
          tripleNLGo fuel
            (rest.drop (run.length - (run.reverse.takeWhile (fun d => ¬ d = '\n')).length))
      else c :: tripleNLGo fuel rest
    else c :: tripleNLGo fuel rest

def collapseTripleNL (l : Str) : Str := tripleNLGo (l.length + 1) l

/-- Anchored scan of `.replace(/^[•\-\*]\s/gm, bullets + ' ')`. -/
def fmtBulletGo (rep : Str) : Nat → Bool → Str → Str
  | 0, _, l => l
  | _ + 1, _, [] => []
  | fuel + 1, atLS, c :: rest =>
    if atLS then
      match rest with
      | d :: rest2 =>
        if (c = '•' ∨ c = '-' ∨ c = '*') ∧ isWS d then
          rep ++ fmtBulletGo rep fuel (isLineTerm d) rest2
        else c :: fmtBulletGo rep fuel (isLineTerm c) rest
      | [] => [c]
    else c :: fmtBulletGo rep fuel (isLineTerm c) rest

def fmtBulletScan (rep : Str) (l : Str) : Str := fmtBulletGo rep (l.length + 1) true l

/-- `formatSection`: restyle bullets (when the template's glyph is set and
differs from `•`), expand line spacing for line heights above 1.2, then
collapse triple newlines and trim. -/
def formatSection (s : DetectedSection) (template : ResumeTemplate) (order : Nat) :
    TemplatedSection :=
  let formatting := template.formatting
  let f1 :=
    if formatting.bullets ≠ [] ∧ formatting.bullets ≠ ['•'] then
      fmtBulletScan (formatting.bullets ++ [' ']) s.content
    else s.content
  let f2 := if mkRat 6 5 < formatting.lineHeight then doubleNL f1 else f1
  let f3 := collapseTripleNL f2
  { id := "section-".data ++ (toString order).data
    title := s.standardTitle
    content := jsTrim f3
    order := order
    formatted := true }

/-- Spacer-line count between sections:
`Math.max(1, Math.floor(sectionSpacing / 6))`. -/
def spacingLines (formatting : TemplateFormatting) : Nat :=
  (max 1 ⌊formatting.sectionSpacing / 6⌋).toNat

/-- `generateFormattedContent`'s loop body from index `i`; the final
`.trim()` is applied by `generateFormattedContent`. -/
def genContentGo (formatting : TemplateFormatting) : Nat → List TemplatedSection → Str
  | _, [] => []
  | i, s :: rest =>
    jsUpper s.title ++ ['\n'] ++
    (if formatting.dividers ∧ i > 0 then List.replicate s.title.length '─' ++ ['\n'] else []) ++
    s.content ++
    match rest with
    | [] => []
    | _ :: _ => List.replicate (spacingLines formatting + 1) '\n' ++
        genContentGo formatting (i + 1) rest

def generateFormattedContent (sections : List TemplatedSection)
    (template : ResumeTemplate) : Str :=
  jsTrim (genContentGo template.formatting 0 sections)

/-- The template engine's own `countWords` (no empty-string guard and no
empty-token filter: an all-whitespace document counts 1). -/
def countWordsTE (text : Str) : Nat :=
  if jsTrim text = [] then 1 else tokGo false (jsTrim text)

/-- `applyTemplate`.  The ambient clock feeding `new Date()` is passed
explicitly as `now`; it is the only impure input of the function. -/
def applyTemplate (document : ATSOptimizedDocument) (template : ResumeTemplate)
    (now : Nat) : TemplatedDocument :=
  let orderedSections := reorderSections document.sections template.sectionOrder
  let templatedSections := orderedSections.enum.map fun p => formatSection p.2 template p.1
  let formattedContent := generateFormattedContent templatedSections template
  { content := formattedContent
    template := template
    sections := templatedSections
    formatting := template.formatting
    metadata :=
      { wordCount := countWordsTE formattedContent
        sectionCount := templatedSections.length
        appliedAt := now } }

/-- The end-to-end pipeline content for one document and an optional
template, as a function of the ambient clock `now`. -/
def pipelineContent (parsedDocument : ParsedDocument) (template : Option ResumeTemplate)
    (now : Nat) : Str :=
  match template with
  | none => (optimizeForATS parsedDocument).content
  | some t => (applyTemplate (optimizeForATS parsedDocument) t now).content

/-! ### Concrete inputs used by counterexamples and witnesses -/

/-- A document whose section heading text also occurs, as a substring, on
an earlier non-heading line. -/
def ce1 : Str := "MY EXPERIENCE IS VAST.\nEXPERIENCE\nDid X".data

/-- The one section the classifier detects in `ce1`. -/
def cs1 : DetectedSection :=
  { title := "EXPERIENCE".data
    standardTitle := "Work Experience".data
    content := []
    startIndex := 1
    endIndex := 1
    confidence := mkRat 4 5 }

/-- A document containing both a Work Experience and a Professional
Summary section. -/
def ce2 : Str := "Work Experience\nDid X at the company\nProfessional Summary\nSeasoned expert".data

/-- Two sections whose standard titles exactly match a template order. -/
def wSecWE : DetectedSection :=
  { title := "WORK HISTORY".data
    standardTitle := "Work Experience".data
    content := "Did X".data
    startIndex := 0
    endIndex := 1
    confidence := mkRat 4 5 }

def wSecED : DetectedSection :=
  { title := "EDUCATION".data
    standardTitle := "Education".data
    content := "BS CS".data
    startIndex := 2
    endIndex := 3
    confidence := 1 }

/-- The one section the classifier detects in `"SKILLS\njava"`. -/
def cs7 : DetectedSection :=
  { title := "SKILLS".data
    standardTitle := "Skills".data
    content := "java".data
    startIndex := 0
    endIndex := 1
    confidence := 1 }

/-- Append a character to the last piece of a non-empty piece list (the
effect of a trailing non-separator character on `splitOnChar`). -/
def appLast (c : Char) : List Str → List Str
  | [] => [[c]]
  | [x] => [x ++ [c]]
  | x :: y :: xs => x :: appLast c (y :: xs)

/-- Inputs for the classifier-structure witness. -/
def ce6 : Str := "WORK HISTORY\nDid X at Y\nEDUCATION\nBS CS".data

def cs6a : DetectedSection :=
  { title := "WORK HISTORY".data
    standardTitle := "Work Experience".data
    content := "Did X at Y".data
    startIndex := 0
    endIndex := 1
    confidence := mkRat 4 5 }

def cs6b : DetectedSection :=
  { title := "EDUCATION".data
    standardTitle := "Education".data
    content := []
    startIndex := 2
    endIndex := 2
    confidence := 1 }

/-! ## Helper lemmas -/

lemma tab_not_mem_tabsGo (l : Str) : ∀ b, '\t' ∉ tabsGo b l := by
  induction l with
  | nil => intro b h; simp [tabsGo] at h
  | cons c rest ih =>
    intro b h
    simp only [tabsGo] at h
    split_ifs at h with hc hb
    · exact ih true h
    · rcases List.mem_cons.mp h with h | h
      · exact absurd h (by decide)
      · exact ih true h
    · rcases List.mem_cons.mp h with h | h
      · exact hc h.symm
      · exact ih false h

lemma contains_iff_mem {α : Type} [BEq α] [LawfulBEq α] (l : List α) (c : α) :
    l.contains c = true ↔ c ∈ l := by
  simp [List.contains]

lemma mem_insertPairSp {p q : Char → Bool} {l : Str} {x : Char}
    (hx : x ∈ insertPairSp p q l) : x ∈ l ∨ x = ' ' := by
  induction l using insertPairSp.induct p q with
  | case1 => simp [insertPairSp] at hx
  | case2 c => simp [insertPairSp] at hx; simp [hx]
  | case3 c d rest h ih =>
    rw [insertPairSp, if_pos h] at hx
    rcases List.mem_cons.mp hx with h1 | h1
    · exact Or.inl (by simp [h1])
    · rcases List.mem_cons.mp h1 with h2 | h2
      · exact Or.inr h2
      · rcases List.mem_cons.mp h2 with h3 | h3
        · exact Or.inl (by simp [h3])
        · rcases ih h3 with h4 | h4
          · exact Or.inl (by simp [h4])
          · exact Or.inr h4
  | case4 c d rest h ih =>
    rw [insertPairSp, if_neg h] at hx
    rcases List.mem_cons.mp hx with h1 | h1
    · exact Or.inl (by simp [h1])
    · rcases ih h1 with h4 | h4
      · exact Or.inl (by simp [h4])
      · exact Or.inr h4

lemma tryBulletAt_rest_subset {bcls : Char → Bool} {l r : Str} {b : Bool}
    (h : tryBulletAt bcls l = some (r, b)) : ∀ x ∈ r, x ∈ l := by
  intro x hx
  unfold tryBulletAt at h
  rcases hd : l.drop (l.takeWhile isWS).length with _ | ⟨c, rest2⟩ <;> rw [hd] at h
  · exact absurd h (by simp)
  · replace h :
        (if bcls c then
          some (rest2.drop (rest2.takeWhile isWS).length,
                match (rest2.takeWhile isWS).getLast? with
                | some c2 => isLineTerm c2
                | none => isLineTerm c)
        else none) = some (r, b) := h
    by_cases hb : bcls c
    · rw [if_pos hb] at h
      injection h with h1
      have hr : r = rest2.drop (rest2.takeWhile isWS).length :=
        (congrArg Prod.fst h1).symm
      subst hr
      have h1 : x ∈ rest2 := (List.drop_suffix _ rest2).subset hx
      have h2 : x ∈ l.drop (l.takeWhile isWS).length := by
        rw [hd]; exact List.mem_cons_of_mem c h1
      exact (List.drop_suffix _ l).subset h2
    · rw [if_neg hb] at h
      exact absurd h (by simp)

lemma mem_bulletScanGo {bcls : Char → Bool} {rep : Str} {x : Char} :
    ∀ (fuel : Nat) (atLS : Bool) (l : Str), x ∈ bulletScanGo bcls rep fuel atLS l →
      x ∈ rep ∨ x ∈ l := by
  intro fuel
  induction fuel with
  | zero => intro atLS l hx; exact Or.inr hx
  | succ n ih =>
    intro atLS l hx
    match l with
    | [] => simp [bulletScanGo] at hx
    | c :: rest =>
      rw [bulletScanGo] at hx
      by_cases hls : atLS
      · rw [if_pos hls] at hx
        rcases ht : tryBulletAt bcls (c :: rest) with _ | ⟨r, b⟩ <;> rw [ht] at hx
        · rcases List.mem_cons.mp hx with h1 | h1
          · exact Or.inr (by simp [h1])
          · rcases ih _ _ h1 with h2 | h2
            · exact Or.inl h2
            · exact Or.inr (List.mem_cons_of_mem c h2)
        · rcases List.mem_append.mp hx with h1 | h1
          · exact Or.inl h1
          · rcases ih _ _ h1 with h2 | h2
            · exact Or.inl h2
            · exact Or.inr (tryBulletAt_rest_subset ht x h2)
      · rw [if_neg hls] at hx
        rcases List.mem_cons.mp hx with h1 | h1
        · exact Or.inr (by simp [h1])
        · rcases ih _ _ h1 with h2 | h2
          · exact Or.inl h2
          · exact Or.inr (List.mem_cons_of_mem c h2)

lemma splitOnChar_ne_nil (sep : Char) (l : Str) : splitOnChar sep l ≠ [] := by
  induction l with
  | nil => simp [splitOnChar]
  | cons c rest ih =>
    rcases h : splitOnChar sep rest with _ | ⟨hd, tl⟩
    · exact absurd h ih
    · intro hcon
      replace hcon : (if c = sep then [] :: hd :: tl else (c :: hd) :: tl) = [] := by
        rw [splitOnChar, h] at hcon; exact hcon
      split_ifs at hcon

lemma not_sep_mem_splitOnChar (sep : Char) (l : Str) :
    ∀ x ∈ splitOnChar sep l, sep ∉ x := by
  induction l with
  | nil => intro x hx; simp [splitOnChar] at hx; simp [hx]
  | cons c rest ih =>
    intro x hx
    rcases h : splitOnChar sep rest with _ | ⟨hd, tl⟩
    · exact absurd h (splitOnChar_ne_nil sep rest)
    · replace hx : x ∈ (if c = sep then [] :: hd :: tl else (c :: hd) :: tl) := by
        rw [splitOnChar, h] at hx; exact hx
      by_cases hc : c = sep
      · rw [if_pos hc] at hx
        rcases List.mem_cons.mp hx with h1 | h1
        · simp [h1]
        · exact ih x (h ▸ h1)
      · rw [if_neg hc] at hx
        rcases List.mem_cons.mp hx with h1 | h1
        · subst h1
          intro hmem
          rcases List.mem_cons.mp hmem with h2 | h2
          · exact hc h2.symm
          · exact ih hd (h ▸ List.mem_cons_self hd tl) h2
        · exact ih x (h ▸ List.mem_cons_of_mem hd h1)

lemma splitOnChar_eq_single {sep : Char} {l : Str} (h : sep ∉ l) :
    splitOnChar sep l = [l] := by
  induction l with
  | nil => simp [splitOnChar]
  | cons c rest ih =>
    have hc : ¬ c = sep := fun hh => h (by simp [hh])
    have hrest : splitOnChar sep rest = [rest] :=
      ih fun hh => h (List.mem_cons_of_mem c hh)
    show splitOnChar sep (c :: rest) = [c :: rest]
    rw [splitOnChar, hrest]
    show (if c = sep then [[], rest] else [c :: rest]) = [c :: rest]
    rw [if_neg hc]

lemma joinWith_single (sep : Char) (x : Str) : joinWith sep [x] = x := by
  simp [joinWith, List.intercalate]

lemma eraseLines_no_sep {p : Str → Bool} {l : Str} (h : '\n' ∉ l) :
    eraseLines p l = if p l then [] else l := by
  unfold eraseLines
  rw [splitOnChar_eq_single h]
  simp only [List.map]
  exact joinWith_single '\n' _

lemma mem_trimL {l : Str} {x : Char} (hx : x ∈ trimL l) : x ∈ l :=
  (List.dropWhile_sublist isWS).subset hx

lemma mem_trimR {l : Str} {x : Char} (hx : x ∈ trimR l) : x ∈ l := by
  unfold trimR at hx
  rw [List.mem_reverse] at hx
  exact List.mem_reverse.mp ((List.dropWhile_sublist isWS).subset hx)

lemma mem_jsTrim {l : Str} {x : Char} (hx : x ∈ jsTrim l) : x ∈ l :=
  mem_trimR (mem_trimL hx)

lemma noNL_ctlFilter (l : Str) : '\n' ∉ l.filter fun c => ¬ isCtlStrip c := fun h =>
  absurd (List.mem_filter.mp h).2 (by decide)

lemma noNL_insertPairSp (p q : Char → Bool) {l : Str} (h : '\n' ∉ l) :
    '\n' ∉ insertPairSp p q l := fun hh =>
  (mem_insertPairSp hh).elim h fun he => absurd he (by decide)

lemma noNL_pdfBulletMap {l : Str} (h : '\n' ∉ l) :
    '\n' ∉ l.map fun c => if pdfBulletMapChar c then '•' else c := by
  intro hh
  rcases List.mem_map.mp hh with ⟨c, hc, hfc⟩
  by_cases hb : pdfBulletMapChar c
  · rw [if_pos hb] at hfc; exact absurd hfc (by decide)
  · rw [if_neg hb] at hfc; exact h (hfc ▸ hc)

lemma noNL_bulletScan (bcls : Char → Bool) (rep : Str) {l : Str} (hrep : '\n' ∉ rep)
    (h : '\n' ∉ l) : '\n' ∉ bulletScan bcls rep l := fun hh =>
  (mem_bulletScanGo _ _ _ hh).elim hrep h

lemma noNL_eraseLines (p : Str → Bool) {l : Str} (h : '\n' ∉ l) :
    '\n' ∉ eraseLines p l := by
  rw [eraseLines_no_sep h]
  split
  · simp
  · exact h

/-- The no-newline property propagated through the tail of `cleanPDFText`
(everything after the control-character strip, up to and including the
per-line trim's join). -/
lemma noNL_pdf_tail (s6 : Str) (h6 : '\n' ∉ s6) :
    '\n' ∉ joinWith '\n' ((splitOnChar '\n'
        (eraseLines isNumLine (eraseLines isPageNumLine
          (bulletScan pdfBulletChar "• ".data
            ((insertPairSp isAsciiAlpha isAsciiDigit
              (insertPairSp isAsciiDigit isAsciiAlpha
                (insertPairSp isAsciiLower isAsciiUpper s6))).map
              fun c => if pdfBulletMapChar c then '•' else c))))).map jsTrim) := by
  have h7 := noNL_insertPairSp isAsciiLower isAsciiUpper h6
  have h8 := noNL_insertPairSp isAsciiDigit isAsciiAlpha h7
  have h9 := noNL_insertPairSp isAsciiAlpha isAsciiDigit h8
  have h11 := noNL_bulletScan pdfBulletChar "• ".data (by decide) (noNL_pdfBulletMap h9)
  have h13 := noNL_eraseLines isNumLine (noNL_eraseLines isPageNumLine h11)
  intro h
  rw [splitOnChar_eq_single h13] at h
  simp only [List.map_cons, List.map_nil] at h
  rw [joinWith_single] at h
  exact h13 (mem_jsTrim h)

lemma findRemove_perm {α : Type} {p : α → Bool} :
    ∀ {l xs : List α} {x : α}, findRemove p l = some (x, xs) → (x :: xs).Perm l := by
  intro l
  induction l with
  | nil => intro xs x h; simp [findRemove] at h
  | cons c rest ih =>
    intro xs x h
    rw [findRemove] at h
    by_cases hc : p c
    · rw [if_pos hc] at h
      injection h with h1
      injection h1 with h2 h3
      subst h2; subst h3
      exact List.Perm.refl _
    · rw [if_neg hc] at h
      rcases hr : findRemove p rest with _ | ⟨y, ys⟩ <;> rw [hr] at h
      · exact absurd h (by simp)
      · simp only [Option.map_some'] at h
        injection h with h1
        injection h1 with h2 h3
        subst h2; subst h3
        exact (List.Perm.swap c y ys).trans ((ih hr).cons c)

lemma findRemove_eq_none {α : Type} {p : α → Bool} :
    ∀ {l : List α}, (∀ x ∈ l, p x = false) → findRemove p l = none := by
  intro l
  induction l with
  | nil => intro _; rfl
  | cons x xs ih =>
    intro h
    have hx : p x = false := h x (by simp)
    rw [findRemove, hx]
    simp only [Bool.false_eq_true, if_false]
    rw [ih fun y hy => h y (by simp [hy])]
    rfl

lemma findRemove_first {α : Type} {p : α → Bool} :
    ∀ (pre : List α) (s : α) (post : List α),
      p s = true → (∀ x ∈ pre, p x = false) →
      findRemove p (pre ++ s :: post) = some (s, pre ++ post) := by
  intro pre
  induction pre with
  | nil =>
    intro s post hs _
    rw [List.nil_append, findRemove, hs]
    rfl
  | cons x xs ih =>
    intro s post hs h
    have hx : p x = false := h x (by simp)
    rw [List.cons_append, findRemove, hx]
    simp only [Bool.false_eq_true, if_false]
    rw [ih s post hs fun y hy => h y (by simp [hy])]
    rfl

lemma reorderGo_perm : ∀ (order : List Str) (sections : List DetectedSection),
    (reorderGo order sections).Perm sections := by
  intro order
  induction order with
  | nil => intro sections; exact List.Perm.refl _
  | cons slot slots ih =>
    intro sections
    rw [reorderGo]
    rcases hr : findRemove (slotMatches slot) sections with _ | ⟨x, xs⟩
    · exact ih sections
    · exact ((ih xs).cons x).trans (findRemove_perm hr)

lemma reorderGo_stable : ∀ (sections : List DetectedSection),
    reorderGo (sections.map fun s => s.standardTitle) sections = sections := by
  intro sections
  induction sections with
  | nil => rfl
  | cons s rest ih =>
    rw [List.map_cons, reorderGo]
    have hp : slotMatches s.standardTitle s = true := by
      simp [slotMatches]
    rw [show findRemove (slotMatches s.standardTitle) (s :: rest) = some (s, rest) from by
      rw [findRemove, if_pos hp]]
    show s :: reorderGo (rest.map fun s => s.standardTitle) rest = s :: rest
    rw [ih]

lemma replaceFirst_spec (rep : Str) {s pat : Str} (hocc : List.IsInfix pat s) :
    ∃ pre post, s = pre ++ pat ++ post ∧
      (∀ q r, s = q ++ pat ++ r → pre.length ≤ q.length) ∧
      replaceFirst s pat rep = pre ++ rep ++ post := by
  induction s with
  | nil =>
    rcases hocc with ⟨a, b, hab⟩
    have hpat : pat = [] := by
      rcases List.append_eq_nil.mp hab with ⟨h1, h2⟩
      exact (List.append_eq_nil.mp h1).2
    refine ⟨[], [], by simp [hpat], fun q r _ => by simp, ?_⟩
    rw [replaceFirst, if_pos hpat]
    simp [hpat]
  | cons c rest ih =>
    by_cases hp : pat.isPrefixOf (c :: rest)
    · have hpre : List.IsPrefix pat (c :: rest) := Iff.mp List.isPrefixOf_iff_prefix hp
      rcases hpre with ⟨t, ht⟩
      refine ⟨[], (c :: rest).drop pat.length, ?_, fun q r _ => by simp, ?_⟩
      · simp only [List.nil_append]
        rw [← ht, List.drop_left]
      · simp [replaceFirst, hp]
    · have hocc' : List.IsInfix pat rest := by
        rcases hocc with ⟨a, b, hab⟩
        rcases a with _ | ⟨a0, a'⟩
        · exfalso
          apply hp
          rw [ List.isPrefixOf_iff_prefix]
          exact ⟨b, by simpa using hab⟩
        · refine ⟨a', b, ?_⟩
          have h2 := (List.cons.inj (by simpa using hab)).2
          rw [List.append_assoc]
          exact h2
      rcases ih hocc' with ⟨pre, post, heq, hmin, hrep⟩
      refine ⟨c :: pre, post, by simp [heq], ?_, ?_⟩
      · intro q r hqr
        rcases q with _ | ⟨q0, q'⟩
        · exfalso
          apply hp
          rw [ List.isPrefixOf_iff_prefix]
          exact ⟨r, by simpa using hqr.symm⟩
        · have h2 : rest = q' ++ pat ++ r := (List.cons.inj hqr).2
          have := hmin q' r h2
          simpa using Nat.succ_le_succ this
      · rw [replaceFirst, if_neg hp, hrep]
        simp

lemma standardize_snd (text : Str) (opts : List OptimizationResult) :
    ∀ l : List DetectedSection,
      (l.foldl
        (fun acc s =>
          if s.title ≠ s.standardTitle then
            (replaceFirst acc.1 s.title s.standardTitle, acc.2 ++ [headingRecord s])
          else acc)
        (text, opts)).2 =
      opts ++ (l.filter fun s => s.title ≠ s.standardTitle).map headingRecord := by
  suffices h : ∀ (l : List DetectedSection) (t : Str) (o : List OptimizationResult),
      (l.foldl
        (fun acc s =>
          if s.title ≠ s.standardTitle then
            (replaceFirst acc.1 s.title s.standardTitle, acc.2 ++ [headingRecord s])
          else acc)
        (t, o)).2 =
      o ++ (l.filter fun s => s.title ≠ s.standardTitle).map headingRecord by
    intro l; exact h l text opts
  intro l
  induction l with
  | nil => intro t o; simp
  | cons s rest ih =>
    intro t o
    rw [List.foldl_cons]
    by_cases hq : s.title ≠ s.standardTitle
    · rw [if_pos hq]
      rw [ih]
      rw [List.filter_cons, if_pos (by simpa using hq)]
      simp
    · rw [if_neg hq]
      rw [ih]
      rw [List.filter_cons, if_neg (by simpa using hq)]

lemma find_std_WE (v : Str) :
    ((stdSections.find? fun e => e.2 = v).map Prod.fst = some "WORK_EXPERIENCE") ↔
    v = "Work Experience".data := by
  constructor
  · intro h
    rcases ho : stdSections.find? (fun e => e.2 = v) with _ | e
    · rw [ho] at h; exact absurd h (by simp)
    · rw [ho] at h
      simp only [Option.map_some'] at h
      have h1 := Option.some.inj h
      have hp : e.2 = v := by simpa using List.find?_some ho
      have hmem := List.mem_of_find?_eq_some ho
      fin_cases hmem <;> first | exact absurd h1 (by decide) | exact hp.symm
  · intro h; subst h; decide

lemma find_std_ED (v : Str) :
    ((stdSections.find? fun e => e.2 = v).map Prod.fst = some "EDUCATION") ↔
    v = "Education".data := by
  constructor
  · intro h
    rcases ho : stdSections.find? (fun e => e.2 = v) with _ | e
    · rw [ho] at h; exact absurd h (by simp)
    · rw [ho] at h
      simp only [Option.map_some'] at h
      have h1 := Option.some.inj h
      have hp : e.2 = v := by simpa using List.find?_some ho
      have hmem := List.mem_of_find?_eq_some ho
      fin_cases hmem <;> first | exact absurd h1 (by decide) | exact hp.symm
  · intro h; subst h; decide

lemma detectedTypes_iff (sections : List DetectedSection) (k : String) (lbl : Str)
    (hfi : ∀ v : Str,
      ((stdSections.find? fun e => e.2 = v).map Prod.fst = some k) ↔ v = lbl) :
    (detectedSectionTypes sections).contains k = true ↔
      ∃ s ∈ sections, s.standardTitle = lbl := by
  rw [contains_iff_mem]
  unfold detectedSectionTypes
  rw [List.mem_filterMap]
  constructor
  · rintro ⟨s, hs, hf⟩; exact ⟨s, hs, (hfi _).mp hf⟩
  · rintro ⟨s, hs, hl⟩; exact ⟨s, hs, (hfi _).mpr hl⟩

lemma missing_warning_iff (text : Str) (sections : List DetectedSection) (k : String)
    (lbl : Str)
    (hfi : ∀ v : Str,
      ((stdSections.find? fun e => e.2 = v).map Prod.fst = some k) ↔ v = lbl)
    (hlook : (stdSections.lookup k).getD [] = lbl)
    (hmemEss : k ∈ essentialSections)
    (hshort : missingSectionWarning lbl ≠ shortContentWarning)
    (hemail : missingSectionWarning lbl ≠ noEmailWarning)
    (hinj : ∀ k2 ∈ essentialSections,
      missingSectionWarning ((stdSections.lookup k2).getD []) = missingSectionWarning lbl →
        k2 = k) :
    (missingSectionWarning lbl ∈ validateATSCompliance text sections ↔
      ¬ ∃ s ∈ sections, s.standardTitle = lbl) := by
  rw [← detectedTypes_iff sections k lbl hfi]
  unfold validateATSCompliance
  rw [List.mem_append, List.mem_append]
  constructor
  · rintro ((hA | hB) | hC)
    · exfalso
      rcases Nat.decLt (countWords text) 100 with hlt | hlt
      · rw [if_neg hlt] at hA; simp at hA
      · rw [if_pos hlt] at hA
        exact hshort (by simpa using hA)
    · rcases List.mem_map.mp hB with ⟨k2, hk2, hfk2⟩
      rcases List.mem_filter.mp hk2 with ⟨hk2m, hk2q⟩
      have hkk := hinj k2 hk2m hfk2
      subst hkk
      simpa using hk2q
    · exfalso
      by_cases he : emailTest text = true
      · rw [if_pos he] at hC; simp at hC
      · rw [if_neg he] at hC
        exact hemail (by simpa using hC)
  · intro hnc
    refine Or.inl (Or.inr ?_)
    refine List.mem_map.mpr ⟨k, List.mem_filter.mpr ⟨hmemEss, by simpa using hnc⟩, ?_⟩
    rw [hlook]

lemma char_eq_of_toNat {c d : Char} (h : c.toNat = d.toNat) : c = d := by
  apply Char.ext
  apply UInt32.ext
  simpa [Char.toNat] using h

lemma ws_cases {c : Char} (h : isWS c = true) :
    c = ' ' ∨ c = '\t' ∨ c = '\n' ∨ c = '\r' ∨ c = '\x0b' ∨ c = '\x0c' := by
  simp only [isWS, decide_eq_true_eq, Bool.decide_or, Bool.or_eq_true] at h
  rcases h with h | h | h | h | h | h
  · exact Or.inl (char_eq_of_toNat (by rw [h]; decide))
  · exact Or.inr (Or.inl (char_eq_of_toNat (by rw [h]; decide)))
  · exact Or.inr (Or.inr (Or.inl (char_eq_of_toNat (by rw [h]; decide))))
  · exact Or.inr (Or.inr (Or.inr (Or.inl (char_eq_of_toNat (by rw [h]; decide)))))
  · exact Or.inr (Or.inr (Or.inr (Or.inr (Or.inl (char_eq_of_toNat (by rw [h]; decide))))))
  · exact Or.inr (Or.inr (Or.inr (Or.inr (Or.inr (char_eq_of_toNat (by rw [h]; decide))))))

lemma ws_not_special {c : Char} (h : isWS c = true) : isSpecialChar c = false := by
  rcases ws_cases h with rfl | rfl | rfl | rfl | rfl | rfl <;> decide

lemma ws_collapseNLGo : ∀ (k : Nat) (l : Str), (∀ c ∈ l, isWS c = true) →
    ∀ c ∈ collapseNLGo k l, isWS c = true := by
  intro k l
  induction l generalizing k with
  | nil => intro _ c hc; simp [collapseNLGo] at hc
  | cons a rest ih =>
    intro hl c hc
    rw [collapseNLGo] at hc
    split_ifs at hc with ha hk
    · exact ih k (fun x hx => hl x (List.mem_cons_of_mem a hx)) c hc
    · rcases List.mem_cons.mp hc with h1 | h1
      · subst h1; decide
      · exact ih (k + 1) (fun x hx => hl x (List.mem_cons_of_mem a hx)) c h1
    · rcases List.mem_cons.mp hc with h1 | h1
      · rw [h1]; exact hl a (List.mem_cons_self a rest)
      · exact ih 0 (fun x hx => hl x (List.mem_cons_of_mem a hx)) c h1

lemma ws_emitSTRun {run : Str} (h : ∀ c ∈ run, isWS c = true) :
    ∀ c ∈ emitSTRun run, isWS c = true := by
  intro c hc
  unfold emitSTRun at hc
  split at hc
  · rcases List.mem_singleton.mp hc with rfl; decide
  · exact h c hc

lemma ws_collapseSTGo : ∀ (l run : Str), (∀ c ∈ run, isWS c = true) →
    (∀ c ∈ l, isWS c = true) → ∀ c ∈ collapseSTGo run l, isWS c = true := by
  intro l
  induction l with
  | nil => intro run hr _ c hc; exact ws_emitSTRun hr c hc
  | cons a rest ih =>
    intro run hr hl c hc
    rw [collapseSTGo] at hc
    split_ifs at hc with ha
    · refine ih (run ++ [a]) ?_ (fun x hx => hl x (List.mem_cons_of_mem a hx)) c hc
      intro x hx
      rcases List.mem_append.mp hx with h1 | h1
      · exact hr x h1
      · have h2 := List.mem_singleton.mp h1
        rw [h2]
        exact hl a (List.mem_cons_self a rest)
    · rcases List.mem_append.mp hc with h1 | h1
      · exact ws_emitSTRun hr c h1
      · rcases List.mem_cons.mp h1 with h2 | h2
        · rw [h2]; exact hl a (List.mem_cons_self a rest)
        · exact ih [] (by simp) (fun x hx => hl x (List.mem_cons_of_mem a hx)) c h2

lemma ws_tabsGo : ∀ (b : Bool) (l : Str), (∀ c ∈ l, isWS c = true) →
    ∀ c ∈ tabsGo b l, isWS c = true := by
  intro b l
  induction l generalizing b with
  | nil => intro _ c hc; simp [tabsGo] at hc
  | cons a rest ih =>
    intro hl c hc
    rw [tabsGo] at hc
    split_ifs at hc with ha hb
    · exact ih true (fun x hx => hl x (List.mem_cons_of_mem a hx)) c hc
    · rcases List.mem_cons.mp hc with h1 | h1
      · subst h1; decide
      · exact ih true (fun x hx => hl x (List.mem_cons_of_mem a hx)) c h1
    · rcases List.mem_cons.mp hc with h1 | h1
      · rw [h1]; exact hl a (List.mem_cons_self a rest)
      · exact ih false (fun x hx => hl x (List.mem_cons_of_mem a hx)) c h1

lemma takeWhile_all {p : Char → Bool} : ∀ {l : Str}, (∀ c ∈ l, p c = true) →
    l.takeWhile p = l := by
  intro l
  induction l with
  | nil => intro _; rfl
  | cons a rest ih =>
    intro h
    rw [List.takeWhile_cons, h a (List.mem_cons_self a rest)]
    simp [ih fun c hc => h c (List.mem_cons_of_mem a hc)]

lemma dropWhile_all {p : Char → Bool} : ∀ {l : Str}, (∀ c ∈ l, p c = true) →
    l.dropWhile p = [] := by
  intro l
  induction l with
  | nil => intro _; rfl
  | cons a rest ih =>
    intro h
    rw [List.dropWhile_cons, h a (List.mem_cons_self a rest)]
    simp [ih fun c hc => h c (List.mem_cons_of_mem a hc)]

lemma tryBulletAt_ws {bcls : Char → Bool} {l : Str} (h : ∀ c ∈ l, isWS c = true) :
    tryBulletAt bcls l = none := by
  unfold tryBulletAt
  rw [takeWhile_all h, List.drop_length]

lemma bulletTestGo_ws {bcls : Char → Bool} : ∀ (fuel : Nat) (atLS : Bool) {l : Str},
    (∀ c ∈ l, isWS c = true) → bulletTestGo bcls fuel atLS l = false := by
  intro fuel
  induction fuel with
  | zero => intro _ l _; rfl
  | succ n ih =>
    intro atLS l hl
    match l with
    | [] => rfl
    | c :: rest =>
      rw [bulletTestGo]
      by_cases hls : atLS
      · rw [if_pos hls, tryBulletAt_ws hl]
        exact ih _ fun x hx => hl x (List.mem_cons_of_mem c hx)
      · rw [if_neg hls]
        exact ih _ fun x hx => hl x (List.mem_cons_of_mem c hx)

lemma ws_trim_nil {l : Str} (h : ∀ c ∈ l, isWS c = true) : jsTrim l = [] := by
  unfold jsTrim trimR trimL
  rw [dropWhile_all fun c hc => h c (List.mem_reverse.mp hc)]
  rfl

lemma countWords_ws {l : Str} (h : ∀ c ∈ l, isWS c = true) : countWords l = 0 := by
  unfold countWords
  rw [if_pos (ws_trim_nil h)]

lemma splitOnChar_subset (sep : Char) (l : Str) :
    ∀ x ∈ splitOnChar sep l, ∀ c ∈ x, c ∈ l := by
  induction l with
  | nil =>
    intro x hx c hc
    simp [splitOnChar] at hx
    subst hx
    simp at hc
  | cons a rest ih =>
    intro x hx c hc
    rcases h : splitOnChar sep rest with _ | ⟨hd, tl⟩
    · exact absurd h (splitOnChar_ne_nil sep rest)
    · replace hx : x ∈ (if a = sep then [] :: hd :: tl else (a :: hd) :: tl) := by
        rw [splitOnChar, h] at hx; exact hx
      by_cases ha : a = sep
      · rw [if_pos ha] at hx
        rcases List.mem_cons.mp hx with h1 | h1
        · subst h1; simp at hc
        · exact List.mem_cons_of_mem a (ih x (h ▸ h1) c hc)
      · rw [if_neg ha] at hx
        rcases List.mem_cons.mp hx with h1 | h1
        · subst h1
          rcases List.mem_cons.mp hc with h2 | h2
          · subst h2; exact List.mem_cons_self c rest
          · exact List.mem_cons_of_mem a
              (ih hd (h ▸ List.mem_cons_self hd tl) c h2)
        · exact List.mem_cons_of_mem a (ih x (h ▸ List.mem_cons_of_mem hd h1) c hc)

lemma detectGo_ws : ∀ (i : Nat) (ls : List Str),
    (∀ x ∈ ls, ∀ c ∈ x, isWS c = true) → detectGo i ls = [] := by
  intro i ls
  induction ls generalizing i with
  | nil => intro _; rfl
  | cons line rest ih =>
    intro h
    rw [detectGo]
    rw [if_pos (ws_trim_nil (h line (List.mem_cons_self line rest)))]
    exact ih (i + 1) fun x hx => h x (List.mem_cons_of_mem line hx)

lemma ws_cleanFormatting {t : Str} (h : ∀ c ∈ t, isWS c = true)
    (o : List OptimizationResult) : cleanFormatting t o = (t, o) := by
  unfold cleanFormatting
  have hany : t.any isSpecialChar = false := by
    rw [List.any_eq_false]
    intro c hc
    simp [ws_not_special (h c hc)]
  simp [hany]

lemma ws_ensureSingle {t : Str} (h : ∀ c ∈ t, isWS c = true)
    (o : List OptimizationResult) :
    ∀ c ∈ (ensureSingleColumnLayout t o).1, isWS c = true := by
  unfold ensureSingleColumnLayout
  split
  · exact ws_tabsGo false t h
  · exact h

lemma short_mem_validate {t : Str} (h : countWords t = 0)
    (sections : List DetectedSection) :
    shortContentWarning ∈ validateATSCompliance t sections := by
  unfold validateATSCompliance
  rw [h]
  rw [if_pos (by decide : (0 : Nat) < 100)]
  simp

lemma toNat_ofNat_valid {n : Nat} (h : n.isValidChar) : (Char.ofNat n).toNat = n := by
  unfold Char.ofNat
  rw [dif_pos h]
  rfl

lemma ws_toLower (c : Char) : isWS (Char.toLower c) = isWS c := by
  show isWS (if c.toNat ≥ 65 ∧ c.toNat ≤ 90 then Char.ofNat (c.toNat + 32) else c) = isWS c
  split
  · next h =>
    have hv : (c.toNat + 32).isValidChar := by
      left
      omega
    have ht := toNat_ofNat_valid hv
    have h65 := h.1
    have h90 := h.2
    simp only [isWS, ht]
    rw [decide_eq_decide]
    omega
  · rfl

lemma dropWhile_cons_head {p : Char → Bool} :
    ∀ {l : Str} {c : Char} {r : Str}, l.dropWhile p = c :: r → p c = false := by
  intro l
  induction l with
  | nil => intro c r h; simp [List.dropWhile] at h
  | cons a l2 ih =>
    intro c r h
    rw [List.dropWhile_cons] at h
    split_ifs at h with ha
    · exact ih h
    · rcases List.cons.inj h with ⟨h1, _⟩
      rw [← h1]
      exact Bool.not_eq_true _ ▸ (by simpa using ha)

lemma dropWhile_idem {p : Char → Bool} (l : Str) :
    (l.dropWhile p).dropWhile p = l.dropWhile p := by
  rcases h : l.dropWhile p with _ | ⟨c, r⟩
  · rfl
  · rw [List.dropWhile_cons, dropWhile_cons_head h]
    simp

/-- A whitespace-free right end survives `trimL`. -/
lemma trimR_trimL_fix {v : Str} (h : trimR v = v) : trimR (trimL v) = trimL v := by
  unfold trimR trimL
  have hv : v.reverse.dropWhile isWS = v.reverse := by
    have := congrArg List.reverse h
    unfold trimR at this
    rw [List.reverse_reverse] at this
    exact this
  rcases hw : (v.dropWhile isWS).reverse with _ | ⟨c, r⟩
  · have h0 := congrArg List.reverse hw
    rw [List.reverse_reverse] at h0
    simp [h0]
  · have h2 := congrArg List.reverse hw
    rw [List.reverse_reverse] at h2
    have hsuf := List.dropWhile_suffix (l := v) isWS
    rcases hsuf with ⟨t, ht⟩
    have hvrev : v.reverse = c :: (r ++ t.reverse) := by
      rw [← ht, List.reverse_append, hw]
      simp
    have hc : isWS c = false := by
      apply dropWhile_cons_head (l := v.reverse)
      rw [hv]
      exact hvrev
    rw [List.dropWhile_cons, hc, h2]
    simp

lemma jsTrim_idem (l : Str) : jsTrim (jsTrim l) = jsTrim l := by
  unfold jsTrim
  have hRR : trimR (trimR l) = trimR l := by
    unfold trimR
    rw [List.reverse_reverse, dropWhile_idem]
  have h2 : trimR (trimL (trimR l)) = trimL (trimR l) := trimR_trimL_fix hRR
  rw [h2]
  unfold trimL
  rw [dropWhile_idem]

lemma trimL_lower_comm (l : Str) : trimL (jsLower l) = jsLower (trimL l) := by
  unfold trimL jsLower
  rw [List.dropWhile_map]
  have : (isWS ∘ Char.toLower) = isWS := funext fun c => ws_toLower c
  rw [this]

lemma trimR_lower_comm (l : Str) : trimR (jsLower l) = jsLower (trimR l) := by
  unfold trimR jsLower
  rw [← List.map_reverse, List.dropWhile_map]
  have : (isWS ∘ Char.toLower) = isWS := funext fun c => ws_toLower c
  rw [this, List.map_reverse]

lemma jsTrim_lower_comm (l : Str) : jsTrim (jsLower l) = jsLower (jsTrim l) := by
  unfold jsTrim
  rw [trimR_lower_comm, trimL_lower_comm]

lemma sectionPatterns_lookup_of_mem {key : String} {P : SectionPattern}
    (h : (key, P) ∈ sectionPatterns) : sectionPatterns.lookup key = some P := by
  fin_cases h <;> decide

lemma match_some {t : Str} {key : String} (h : matchSectionPattern t = some key) :
    ∃ P, sectionPatterns.lookup key = some P ∧
      P.any (fun alt => matchSeq alt (jsTrim (jsLower t))) = true := by
  unfold matchSectionPattern at h
  rcases List.exists_of_findSome?_eq_some h with ⟨e, hmem, hf⟩
  by_cases hany : (e.2 : SectionPattern).any
      (fun alt => matchSeq alt (jsTrim (jsLower t))) = true
  · rw [if_pos hany] at hf
    have hkey := Option.some.inj hf
    refine ⟨e.2, ?_, hany⟩
    rw [← hkey]
    rcases e with ⟨k, P⟩
    exact sectionPatterns_lookup_of_mem hmem
  · rw [if_neg hany] at hf
    exact absurd hf (by simp)

lemma foldl_max_none {s : Str} (v : ℚ) : ∀ (P : SectionPattern) (a : ℚ),
    (P.any fun alt => matchSeq alt s) = false →
    P.foldl (fun m alt => if matchSeq alt s then max m v else m) a = a := by
  intro P
  induction P with
  | nil => intro a _; rfl
  | cons alt P2 ih =>
    intro a h
    rw [List.any_cons, Bool.or_eq_false_iff] at h
    rw [List.foldl_cons, if_neg (by simp [h.1])]
    exact ih a h.2

lemma foldl_max_any {s : Str} (v : ℚ) : ∀ (P : SectionPattern) (a : ℚ),
    (P.any fun alt => matchSeq alt s) = true →
    P.foldl (fun m alt => if matchSeq alt s then max m v else m) a = max a v := by
  intro P
  induction P with
  | nil => intro a h; simp at h
  | cons alt P2 ih =>
    intro a h
    rw [List.foldl_cons]
    by_cases hm : matchSeq alt s = true
    · rw [if_pos hm]
      rcases h2 : (P2.any fun alt => matchSeq alt s) with _ | _
      · rw [foldl_max_none v P2 (max a v) h2]
      · rw [ih (max a v) h2, max_assoc, max_self]
    · rw [if_neg hm]
      rw [List.any_cons] at h
      rcases Bool.or_eq_true_iff.mp h with h1 | h1
      · exact absurd h1 hm
      · exact ih a h1

lemma calculateConfidence_eq {t : Str} {key : String} {P : SectionPattern}
    (hlook : sectionPatterns.lookup key = some P)
    (hany : P.any (fun alt => matchSeq alt (jsTrim (jsLower t))) = true) :
    calculateConfidence t key =
      if jsTrim (jsLower t) = jsLower ((stdSections.lookup key).getD []) then 1
      else mkRat 4 5 := by
  unfold calculateConfidence
  rw [hlook]
  simp only [Option.getD_some]
  by_cases heq : jsTrim (jsLower t) = jsLower ((stdSections.lookup key).getD [])
  · rw [if_pos heq]
    have hfun : (fun (m : ℚ) alt =>
        if matchSeq alt (jsTrim (jsLower t)) then
          if jsTrim (jsLower t) = jsLower ((stdSections.lookup key).getD []) then max m 1
          else max m (mkRat 4 5)
        else m) =
        fun (m : ℚ) alt => if matchSeq alt (jsTrim (jsLower t)) then max m 1 else m := by
      funext m alt
      rw [if_pos heq]
    rw [hfun, foldl_max_any 1 P 0 hany]
    decide
  · rw [if_neg heq]
    have hfun : (fun (m : ℚ) alt =>
        if matchSeq alt (jsTrim (jsLower t)) then
          if jsTrim (jsLower t) = jsLower ((stdSections.lookup key).getD []) then max m 1
          else max m (mkRat 4 5)
        else m) =
        fun (m : ℚ) alt =>
          if matchSeq alt (jsTrim (jsLower t)) then max m (mkRat 4 5) else m := by
      funext m alt
      rw [if_neg heq]
    rw [hfun, foldl_max_any (mkRat 4 5) P 0 hany]
    decide

lemma mem_detectGo (ls : List Str) : ∀ (i : Nat) (s : DetectedSection),
    s ∈ detectGo i ls →
    jsTrim s.title = s.title ∧
    isLikelyHeading s.title = true ∧
    ∃ key, matchSectionPattern s.title = some key ∧
      s.standardTitle = (stdSections.lookup key).getD [] ∧
      s.confidence = calculateConfidence s.title key := by
  induction ls with
  | nil => intro i s hs; simp [detectGo] at hs
  | cons line rest ih =>
    intro i s hs
    simp only [detectGo] at hs
    split_ifs at hs with h1 h2
    · exact ih (i + 1) s hs
    · rcases hk : matchSectionPattern (jsTrim line) with _ | key
      · replace hs : s ∈ detectGo (i + 1) rest := by rw [hk] at hs; exact hs
        exact ih (i + 1) s hs
      · replace hs : s ∈
            ({ title := jsTrim line
               standardTitle := (stdSections.lookup key).getD []
               content := jsTrim (joinWith '\n'
                 (rest.takeWhile fun l => ¬ isLikelyHeading (jsTrim l)))
               startIndex := i
               endIndex := i + (rest.takeWhile fun l => ¬ isLikelyHeading (jsTrim l)).length
               confidence := calculateConfidence (jsTrim line) key } : DetectedSection) ::
            detectGo (i + 1) rest := by
          rw [hk] at hs
          exact hs
        rcases List.mem_cons.mp hs with h3 | h3
        · subst h3
          exact ⟨jsTrim_idem line, h2, key, hk, rfl, rfl⟩
        · exact ih (i + 1) s h3
    · exact ih (i + 1) s hs

lemma joinWith_cons_cons (sep : Char) (x y : Str) (l : List Str) :
    joinWith sep (x :: y :: l) = x ++ sep :: joinWith sep (y :: l) := by
  simp [joinWith, List.intercalate, List.intersperse]

lemma trimR_append_ws {c : Char} (hc : isWS c = true) (x : Str) :
    jsTrim (x ++ [c]) = jsTrim x := by
  unfold jsTrim trimR
  rw [List.reverse_append]
  simp only [List.reverse_cons, List.reverse_nil, List.nil_append, List.singleton_append]
  rw [List.dropWhile_cons, hc]
  simp

lemma jsTrim_cons_ws {c : Char} (hc : isWS c = true) (x : Str) :
    jsTrim (c :: x) = jsTrim x := by
  unfold jsTrim trimR
  rw [show (c :: x).reverse = x.reverse ++ [c] by simp, List.dropWhile_append]
  split
  · next he =>
    have h1 : List.dropWhile isWS [c] = [] := by
      rw [show [c] = c :: ([] : Str) from rfl, List.dropWhile_cons, hc]
      simp
    have h2 : x.reverse.dropWhile isWS = [] := by
      rcases hh : x.reverse.dropWhile isWS with _ | _
      · rfl
      · rw [hh] at he
        simp [List.isEmpty] at he
    rw [h1, h2]
  · rw [List.reverse_append]
    simp only [List.reverse_cons, List.reverse_nil, List.nil_append, List.singleton_append]
    unfold trimL
    rw [List.dropWhile_cons, hc]
    simp

lemma splitOnChar_sep_cons (sep : Char) (w : Str) :
    splitOnChar sep (sep :: w) = [] :: splitOnChar sep w := by
  rcases h : splitOnChar sep w with _ | ⟨hd, tl⟩
  · exact absurd h (splitOnChar_ne_nil sep w)
  · rw [splitOnChar, h]
    show (if sep = sep then ([] : Str) :: hd :: tl else (sep :: hd) :: tl) = [] :: hd :: tl
    rw [if_pos rfl]

lemma splitOnChar_nonsep_cons {sep c : Char} (hc : ¬ c = sep) (w : Str) :
    splitOnChar sep (c :: w) =
      (c :: (splitOnChar sep w).headI) :: (splitOnChar sep w).tail := by
  rcases h : splitOnChar sep w with _ | ⟨hd, tl⟩
  · exact absurd h (splitOnChar_ne_nil sep w)
  · rw [splitOnChar, h]
    show (if c = sep then ([] : Str) :: hd :: tl else (c :: hd) :: tl) =
      (c :: (hd :: tl).headI) :: (hd :: tl).tail
    rw [if_neg hc]
    rfl

lemma splitOnChar_append_sep (sep : Char) : ∀ l : Str,
    splitOnChar sep (l ++ [sep]) = splitOnChar sep l ++ [[]] := by
  intro l
  induction l with
  | nil =>
    show splitOnChar sep [sep] = [[]] ++ [[]]
    rw [show [sep] = sep :: ([] : Str) from rfl, splitOnChar_sep_cons]
    rfl
  | cons a l2 ih =>
    show splitOnChar sep (a :: (l2 ++ [sep])) = splitOnChar sep (a :: l2) ++ [[]]
    by_cases ha : a = sep
    · rw [ha, splitOnChar_sep_cons, splitOnChar_sep_cons, ih]
      rfl
    · rcases h : splitOnChar sep l2 with _ | ⟨hd, tl⟩
      · exact absurd h (splitOnChar_ne_nil sep l2)
      · rw [splitOnChar_nonsep_cons ha, splitOnChar_nonsep_cons ha, ih, h]
        rfl

lemma splitOnChar_append_nonsep {sep c : Char} (hc : ¬ c = sep) : ∀ l : Str,
    splitOnChar sep (l ++ [c]) = appLast c (splitOnChar sep l) := by
  intro l
  induction l with
  | nil =>
    show splitOnChar sep [c] = appLast c [[]]
    rw [show [c] = c :: ([] : Str) from rfl, splitOnChar_nonsep_cons hc]
    rfl
  | cons a l2 ih =>
    show splitOnChar sep (a :: (l2 ++ [c])) = appLast c (splitOnChar sep (a :: l2))
    by_cases ha : a = sep
    · rw [ha, splitOnChar_sep_cons, splitOnChar_sep_cons, ih]
      rcases h : splitOnChar sep l2 with _ | ⟨hd, tl⟩
      · exact absurd h (splitOnChar_ne_nil sep l2)
      · rfl
    · rcases h : splitOnChar sep l2 with _ | ⟨hd, tl⟩
      · exact absurd h (splitOnChar_ne_nil sep l2)
      · rw [splitOnChar_nonsep_cons ha, splitOnChar_nonsep_cons ha, ih, h]
        rcases tl with _ | ⟨t0, ts⟩
        · rfl
        · rfl

lemma splitOnChar_prefix_sep (sep : Char) : ∀ (x w : Str), sep ∉ x →
    splitOnChar sep (x ++ sep :: w) = x :: splitOnChar sep w := by
  intro x
  induction x with
  | nil =>
    intro w _
    simp only [List.nil_append]
    rw [splitOnChar_sep_cons]
  | cons a x2 ih =>
    intro w hx
    have ha : ¬ a = sep := fun hh => hx (by simp [hh])
    rw [List.cons_append, splitOnChar_nonsep_cons ha,
      ih w fun hh => hx (List.mem_cons_of_mem a hh)]
    rfl

lemma splitOnChar_join (sep : Char) : ∀ xs : List Str, xs ≠ [] →
    (∀ x ∈ xs, sep ∉ x) → splitOnChar sep (joinWith sep xs) = xs := by
  intro xs
  induction xs with
  | nil => intro h _; exact absurd rfl h
  | cons x rest ih =>
    intro _ hsep
    rcases rest with _ | ⟨y, rest2⟩
    · rw [show joinWith sep [x] = x from joinWith_single sep x]
      exact splitOnChar_eq_single (hsep x (List.mem_cons_self x []))
    · rw [joinWith_cons_cons]
      have hx : sep ∉ x := hsep x (List.mem_cons_self x _)
      have ihr : splitOnChar sep (joinWith sep (y :: rest2)) = y :: rest2 :=
        ih (by simp) fun z hz => hsep z (List.mem_cons_of_mem x hz)
      rw [splitOnChar_prefix_sep sep x _ hx, ihr]

lemma mem_appLast {c : Char} (hc : isWS c = true) :
    ∀ (ls : List Str) (y : Str), y ∈ ls → ∃ z ∈ appLast c ls, jsTrim y = jsTrim z := by
  intro ls
  induction ls with
  | nil => intro y hy; simp at hy
  | cons x rest ih =>
    intro y hy
    rcases rest with _ | ⟨x2, rest2⟩
    · have h := List.mem_singleton.mp hy
      refine ⟨x ++ [c], by simp [appLast], ?_⟩
      rw [h, trimR_append_ws hc]
    · rcases List.mem_cons.mp hy with h | h
      · refine ⟨x, ?_, by rw [h]⟩
        show x ∈ x :: appLast c (x2 :: rest2)
        exact List.mem_cons_self x _
      · obtain ⟨z, hz, he⟩ := ih y h
        refine ⟨z, ?_, he⟩
        show z ∈ x :: appLast c (x2 :: rest2)
        exact List.mem_cons_of_mem x hz

lemma lines_trimL (u : Str) : ∀ L ∈ splitOnChar '\n' (trimL u),
    ∃ y ∈ splitOnChar '\n' u, jsTrim L = jsTrim y := by
  induction u with
  | nil => intro L hL; exact ⟨L, hL, rfl⟩
  | cons c v ih =>
    intro L hL
    by_cases hc : isWS c = true
    · have he : trimL (c :: v) = trimL v := by
        unfold trimL
        rw [List.dropWhile_cons, hc]
        simp
      rw [he] at hL
      obtain ⟨y, hy, hey⟩ := ih L hL
      by_cases hcn : c = '\n'
      · subst hcn
        exact ⟨y, by rw [splitOnChar_sep_cons]; exact List.mem_cons_of_mem _ hy, hey⟩
      · rcases hsv : splitOnChar '\n' v with _ | ⟨hd, tl⟩
        · exact absurd hsv (splitOnChar_ne_nil _ v)
        · rw [hsv] at hy
          rcases List.mem_cons.mp hy with h1 | h1
          · refine ⟨c :: hd, ?_, ?_⟩
            · rw [splitOnChar_nonsep_cons hcn, hsv]
              exact List.mem_cons_self _ _
            · rw [hey, h1, jsTrim_cons_ws hc]
          · refine ⟨y, ?_, hey⟩
            rw [splitOnChar_nonsep_cons hcn, hsv]
            exact List.mem_cons_of_mem _ h1
    · have hcf : isWS c = false := by simpa using hc
      have he : trimL (c :: v) = c :: v := by
        unfold trimL
        rw [List.dropWhile_cons, hcf]
        simp
      rw [he] at hL
      exact ⟨L, hL, rfl⟩

lemma lines_trimR (u : Str) : ∀ L ∈ splitOnChar '\n' (trimR u),
    ∃ y ∈ splitOnChar '\n' u, jsTrim L = jsTrim y := by
  induction u using List.reverseRecOn with
  | nil => intro L hL; exact ⟨L, hL, rfl⟩
  | append_singleton v c ih =>
    intro L hL
    by_cases hc : isWS c = true
    · have he : trimR (v ++ [c]) = trimR v := by
        unfold trimR
        rw [List.reverse_append]
        simp only [List.reverse_cons, List.reverse_nil, List.nil_append,
          List.singleton_append]
        rw [List.dropWhile_cons, hc]
        simp
      rw [he] at hL
      obtain ⟨y, hy, hey⟩ := ih L hL
      by_cases hcn : c = '\n'
      · subst hcn
        refine ⟨y, ?_, hey⟩
        rw [splitOnChar_append_sep]
        exact List.mem_append_left _ hy
      · obtain ⟨z, hz, hez⟩ := mem_appLast hc (splitOnChar '\n' v) y hy
        refine ⟨z, ?_, by rw [hey, hez]⟩
        rw [splitOnChar_append_nonsep hcn]
        exact hz
    · have hcf : isWS c = false := by simpa using hc
      have he : trimR (v ++ [c]) = v ++ [c] := by
        unfold trimR
        rw [List.reverse_append]
        simp only [List.reverse_cons, List.reverse_nil, List.nil_append,
          List.singleton_append]
        rw [List.dropWhile_cons, hcf]
        simp
      rw [he] at hL
      exact ⟨L, hL, rfl⟩

lemma lines_jsTrim (u : Str) : ∀ L ∈ splitOnChar '\n' (jsTrim u),
    ∃ y ∈ splitOnChar '\n' u, jsTrim L = jsTrim y := by
  intro L hL
  obtain ⟨y1, hy1, he1⟩ := lines_trimL (trimR u) L hL
  obtain ⟨y2, hy2, he2⟩ := lines_trimR u y1 hy1
  exact ⟨y2, hy2, by rw [he1, he2]⟩

lemma get?_takeWhile_pred {p : Str → Bool} : ∀ (l : List Str) (k : Nat) (x : Str),
    k < (l.takeWhile p).length → l.get? k = some x → p x = true := by
  intro l
  induction l with
  | nil => intro k x h _; simp at h
  | cons a l2 ih =>
    intro k x h hg
    rw [List.takeWhile_cons] at h
    by_cases hpa : p a = true
    · rw [if_pos hpa] at h
      rcases k with _ | k2
      · have hx : a = x := by simpa using hg
        rw [← hx]
        exact hpa
      · have h2 : k2 < (l2.takeWhile p).length := by simpa using h
        exact ih k2 x h2 (by simpa using hg)
    · rw [if_neg hpa] at h
      simp at h

lemma detectGo_start (ls : List Str) : ∀ (i : Nat) (s : DetectedSection),
    s ∈ detectGo i ls →
    ∃ k line, ls.get? k = some line ∧ s.startIndex = i + k ∧
      isLikelyHeading (jsTrim line) = true := by
  induction ls with
  | nil => intro i s hs; simp [detectGo] at hs
  | cons line rest ih =>
    intro i s hs
    simp only [detectGo] at hs
    split_ifs at hs with h1 h2
    · obtain ⟨k, l2, hget, hst, hh⟩ := ih (i + 1) s hs
      exact ⟨k + 1, l2, by simpa using hget, by omega, hh⟩
    · rcases hk : matchSectionPattern (jsTrim line) with _ | key
      · replace hs : s ∈ detectGo (i + 1) rest := by rw [hk] at hs; exact hs
        obtain ⟨k, l2, hget, hst, hh⟩ := ih (i + 1) s hs
        exact ⟨k + 1, l2, by simpa using hget, by omega, hh⟩
      · replace hs : s ∈
            ({ title := jsTrim line
               standardTitle := (stdSections.lookup key).getD []
               content := jsTrim (joinWith '\n'
                 (rest.takeWhile fun l => ¬ isLikelyHeading (jsTrim l)))
               startIndex := i
               endIndex := i + (rest.takeWhile fun l => ¬ isLikelyHeading (jsTrim l)).length
               confidence := calculateConfidence (jsTrim line) key } : DetectedSection) ::
            detectGo (i + 1) rest := by
          rw [hk] at hs
          exact hs
        rcases List.mem_cons.mp hs with h3 | h3
        · subst h3
          exact ⟨0, line, rfl, rfl, h2⟩
        · obtain ⟨k, l2, hget, hst, hh⟩ := ih (i + 1) s h3
          exact ⟨k + 1, l2, by simpa using hget, by omega, hh⟩
    · obtain ⟨k, l2, hget, hst, hh⟩ := ih (i + 1) s hs
      exact ⟨k + 1, l2, by simpa using hget, by omega, hh⟩

lemma detectGo_pairwise (ls : List Str) : ∀ i : Nat,
    List.Pairwise (fun a b => a.endIndex < b.startIndex) (detectGo i ls) := by
  induction ls with
  | nil => intro i; simp [detectGo]
  | cons line rest ih =>
    intro i
    simp only [detectGo]
    split_ifs with h1 h2
    · exact ih (i + 1)
    · rcases hk : matchSectionPattern (jsTrim line) with _ | key
      · exact ih (i + 1)
      · refine List.Pairwise.cons ?_ (ih (i + 1))
        intro b hb
        obtain ⟨k, l2, hget, hst, hh⟩ := detectGo_start rest (i + 1) b hb
        have hk2 : (rest.takeWhile fun l => ¬ isLikelyHeading (jsTrim l)).length ≤ k := by
          by_contra hlt
          push_neg at hlt
          have hp := get?_takeWhile_pred rest k l2 hlt hget
          simp [hh] at hp
        show i + (rest.takeWhile fun l => ¬ isLikelyHeading (jsTrim l)).length < b.startIndex
        omega
    · exact ih (i + 1)

lemma detectGo_start_le_end (ls : List Str) : ∀ (i : Nat) (s : DetectedSection),
    s ∈ detectGo i ls → s.startIndex ≤ s.endIndex := by
  induction ls with
  | nil => intro i s hs; simp [detectGo] at hs
  | cons line rest ih =>
    intro i s hs
    simp only [detectGo] at hs
    split_ifs at hs with h1 h2
    · exact ih (i + 1) s hs
    · rcases hk : matchSectionPattern (jsTrim line) with _ | key
      · replace hs : s ∈ detectGo (i + 1) rest := by rw [hk] at hs; exact hs
        exact ih (i + 1) s hs
      · replace hs : s ∈
            ({ title := jsTrim line
               standardTitle := (stdSections.lookup key).getD []
               content := jsTrim (joinWith '\n'
                 (rest.takeWhile fun l => ¬ isLikelyHeading (jsTrim l)))
               startIndex := i
               endIndex := i + (rest.takeWhile fun l => ¬ isLikelyHeading (jsTrim l)).length
               confidence := calculateConfidence (jsTrim line) key } : DetectedSection) ::
            detectGo (i + 1) rest := by
          rw [hk] at hs
          exact hs
        rcases List.mem_cons.mp hs with h3 | h3
        · subst h3
          exact Nat.le_add_right i _
        · exact ih (i + 1) s h3
    · exact ih (i + 1) s hs

lemma detectGo_content (ls : List Str) : (∀ x ∈ ls, '\n' ∉ x) →
    ∀ (i : Nat) (s : DetectedSection), s ∈ detectGo i ls →
    ∀ L ∈ splitOnChar '\n' s.content, isLikelyHeading (jsTrim L) = false := by
  induction ls with
  | nil => intro _ i s hs; simp [detectGo] at hs
  | cons line rest ih =>
    intro hnl i s hs
    simp only [detectGo] at hs
    split_ifs at hs with h1 h2
    · exact ih (fun x hx => hnl x (List.mem_cons_of_mem line hx)) (i + 1) s hs
    · rcases hk : matchSectionPattern (jsTrim line) with _ | key
      · replace hs : s ∈ detectGo (i + 1) rest := by rw [hk] at hs; exact hs
        exact ih (fun x hx => hnl x (List.mem_cons_of_mem line hx)) (i + 1) s hs
      · replace hs : s ∈
            ({ title := jsTrim line
               standardTitle := (stdSections.lookup key).getD []
               content := jsTrim (joinWith '\n'
                 (rest.takeWhile fun l => ¬ isLikelyHeading (jsTrim l)))
               startIndex := i
               endIndex := i + (rest.takeWhile fun l => ¬ isLikelyHeading (jsTrim l)).length
               confidence := calculateConfidence (jsTrim line) key } : DetectedSection) ::
            detectGo (i + 1) rest := by
          rw [hk] at hs
          exact hs
        rcases List.mem_cons.mp hs with h3 | h3
        · subst h3
          intro L hL
          replace hL : L ∈ splitOnChar '\n' (jsTrim (joinWith '\n'
              (rest.takeWhile fun l => ¬ isLikelyHeading (jsTrim l)))) := hL
          obtain ⟨y, hy, hey⟩ := lines_jsTrim _ L hL
          rcases hb : rest.takeWhile (fun l => ¬ isLikelyHeading (jsTrim l))
            with _ | ⟨b0, bs⟩
          · rw [hb] at hy
            replace hy : y ∈ ([[]] : List Str) := hy
            have hy0 : y = [] := by simpa using hy
            have hL0 : jsTrim L = [] := by rw [hey, hy0]; rfl
            rw [hL0]
            rfl
          · have hne : (b0 :: bs : List Str) ≠ [] := by simp
            have hnb : ∀ x ∈ (b0 :: bs), '\n' ∉ x := by
              intro x hx
              have hxr : x ∈ rest :=
                List.takeWhile_subset _ (hb ▸ hx)
              exact hnl x (List.mem_cons_of_mem line hxr)
            rw [hb, splitOnChar_join '\n' (b0 :: bs) hne hnb] at hy
            have hp := List.mem_takeWhile_imp (hb ▸ hy)
            rw [hey]
            simpa using hp
        · exact ih (fun x hx => hnl x (List.mem_cons_of_mem line hx)) (i + 1) s h3
    · exact ih (fun x hx => hnl x (List.mem_cons_of_mem line hx)) (i + 1) s hs

/-! ## Claim theorems -/

/-- C9: `ensureSingleColumnLayout` leaves no tab in its output, appends the
`structure_improved` record exactly when the input contains a tab run, and
on `"Name\tTitle\tDate"` produces `"Name Title Date"` with that record. -/
theorem ensureSingleColumn_flattens_tabs :
    (∀ (text : Str) (opts : List OptimizationResult),
      ('\t' ∉ (ensureSingleColumnLayout text opts).1) ∧
      (ensureSingleColumnLayout text opts).2 =
        opts ++
          (if text.contains '\t' then
            [{ type := .structure_improved
               description :=
                 "Converted table structures to linear text for ATS compatibility".data }]
          else [])) ∧
    ensureSingleColumnLayout "Name\tTitle\tDate".data [] =
      ("Name Title Date".data,
       [{ type := .structure_improved
          description :=
            "Converted table structures to linear text for ATS compatibility".data }]) := by
  refine ⟨fun text opts => ⟨?_, ?_⟩, by decide⟩
  · unfold ensureSingleColumnLayout
    split
    · exact tab_not_mem_tabsGo text false
    · next h =>
      intro hmem
      exact h ((contains_iff_mem text '\t').mpr hmem)
  · unfold ensureSingleColumnLayout
    split <;> simp_all

/-- C9 witness: the no-tab guarantee evaluated at `"a\tb"`. -/
theorem ensureSingleColumn_flattens_tabs_witness :
    '\t' ∉ (ensureSingleColumnLayout "a\tb".data []).1 :=
  (ensureSingleColumn_flattens_tabs.1 "a\tb".data []).1

/-- C3: the control-character strip of `cleanPDFText` uses the class
`[\u0000-\u001F\u007F-\u009F]`, which contains U+000A; consequently every
newline surviving line-ending unification is deleted, not preserved — the
cleaned text never contains a newline at all, and `"a\nb"` becomes
`"ab"`.  This contradicts the source's own comment ("Remove control
characters except \n and \t") and the spec. -/
theorem cleanPDFText_deletes_all_newlines :
    cleanPDFText "a\nb".data = "ab".data ∧
    ∀ rawText : Str, '\n' ∉ cleanPDFText rawText := by
  refine ⟨by decide, fun rawText h => ?_⟩
  simp only [cleanPDFText] at h
  rw [List.mem_reverse] at h
  replace h := (List.dropWhile_sublist _).subset h
  rw [List.mem_reverse] at h
  replace h := (List.dropWhile_sublist _).subset h
  exact noNL_pdf_tail _ (noNL_ctlFilter _) h

/-- C3 witness: the general no-newline consequence evaluated at a concrete
input. -/
theorem cleanPDFText_deletes_all_newlines_witness :
    '\n' ∉ cleanPDFText "x\ny\nz".data :=
  cleanPDFText_deletes_all_newlines.2 "x\ny\nz".data

/-- C4: the pipeline content (optimizer plus optional template application)
does not depend on the ambient clock, the only impure input; two runs on
identical `ParsedDocument` and `ResumeTemplate` yield byte-identical
content. -/
theorem pipelineContent_deterministic :
    ∀ (parsedDocument : ParsedDocument) (template : Option ResumeTemplate)
      (now₁ now₂ : Nat),
      pipelineContent parsedDocument template now₁ =
        pipelineContent parsedDocument template now₂ := by
  intro parsedDocument template now₁ now₂
  cases template <;> rfl

/-- C8 counterexample: on raw extracted text `"7\n"` (non-empty and not
whitespace-only, so the source's pre-cleaning emptiness check passes),
`parsePDF`'s core returns success although the normalized (post-cleaning)
text is empty — the `EmptyContent` failure is keyed to the raw text, not
the normalized text. -/
theorem parsePDF_empty_check_is_precleaning :
    parsePDFCore "7\n".data = .ok [] ∧
    jsTrim "7\n".data ≠ [] ∧
    cleanPDFText "7\n".data = [] :=
  ⟨rfl, by decide, by decide⟩

/-- C8 (amended): `parsePDF` fails with the empty-content error exactly
when the raw concatenated extraction text — before cleaning — is empty or
whitespace-only. -/
theorem parsePDF_emptyContent_iff_raw_blank :
    ∀ allText : Str,
      (∃ e, parsePDFCore allText = .error e) ↔ jsTrim allText = [] := by
  intro allText
  unfold parsePDFCore
  split
  · next h =>
    constructor
    · intro _
      rcases h with h | h
      · subst h; rfl
      · exact h
    · exact fun _ => ⟨.fileCorrupted, rfl⟩
  · next h =>
    push_neg at h
    constructor
    · rintro ⟨e, he⟩
      exact Except.noConfusion he
    · intro hh
      exact absurd hh h.2

/-- C5: template reordering (1) never drops, duplicates or synthesizes
sections — the result is a permutation of the input; (2) with the template
exhausted, the sections still unplaced are appended in their original
relative order; (3) a slot none of the current sections matches is skipped
without synthesizing a section; (4) a slot some section matches places the
first matching unplaced section (every section before it in the current
order fails the match), removing it — so later slots and the final
remainder keep the original relative order of the rest; and (5) when the
sections' standard titles exactly match the template's section order, the
rendered order is exactly the input order. -/
theorem reorderSections_spec :
    ∀ (sections : List DetectedSection) (templateOrder : List Str),
      (reorderSections sections templateOrder).Perm sections ∧
      reorderSections sections [] = sections ∧
      (∀ slot slots, (∀ s ∈ sections, slotMatches slot s = false) →
        reorderSections sections (slot :: slots) =
          reorderSections sections slots) ∧
      (∀ slot slots pre s post,
        sections = pre ++ s :: post →
        slotMatches slot s = true →
        (∀ x ∈ pre, slotMatches slot x = false) →
        reorderSections sections (slot :: slots) =
          s :: reorderSections (pre ++ post) slots) ∧
      ((sections.map fun s => s.standardTitle) = templateOrder →
        reorderSections sections templateOrder = sections) := by
  intro sections templateOrder
  refine ⟨reorderGo_perm templateOrder sections, rfl, ?_, ?_, fun h => ?_⟩
  · intro slot slots h
    show reorderGo (slot :: slots) sections = reorderGo slots sections
    rw [reorderGo, findRemove_eq_none h]
  · intro slot slots pre s post hdec hs hpre
    show reorderGo (slot :: slots) sections = s :: reorderGo slots (pre ++ post)
    rw [hdec, reorderGo, findRemove_first pre s post hs hpre]
  · rw [reorderSections, ← h, reorderGo_stable]

/-- C5 witness: on `[wSecED, wSecWE]` the slot `"Work Experience"` places
`wSecWE` — the first matching unplaced section, `wSecED` before it failing
the match — and removes it; and two sections whose standard titles match
the template order exactly are left in place. -/
theorem reorderSections_spec_witness :
    (reorderSections [wSecED, wSecWE] ["Work Experience".data] =
      wSecWE :: reorderSections ([wSecED] ++ []) []) ∧
    reorderSections [wSecWE, wSecED] ["Work Experience".data, "Education".data] =
      [wSecWE, wSecED] :=
  ⟨(reorderSections_spec [wSecED, wSecWE] ["Work Experience".data]).2.2.2.1
      "Work Experience".data [] [wSecED] wSecWE [] rfl (by decide) (by decide),
   (reorderSections_spec [wSecWE, wSecED]
      ["Work Experience".data, "Education".data]).2.2.2.2 (by decide)⟩

/-- C1 counterexample: in `ce1`, the detected section's heading line is
line 1 (`"EXPERIENCE"`), but the standardizer's `String.replace` rewrites
the first occurrence of the title substring — inside the earlier free-text
line 0 — and leaves the heading line itself untouched. -/
theorem standardize_misses_heading_line :
    detectSections ce1 = [cs1] ∧
    cs1.startIndex = 1 ∧
    cs1.title ≠ cs1.standardTitle ∧
    (standardizeSectionHeadings ce1 (detectSections ce1) []).1 =
      "MY Work Experience IS VAST.\nEXPERIENCE\nDid X".data ∧
    (splitOnChar '\n' (standardizeSectionHeadings ce1 (detectSections ce1) []).1).getD 1 [] =
      "EXPERIENCE".data := by decide

/-- C1 (amended): processing sections in reverse document order, the
standardizer appends exactly one `heading_standardized` record per section
whose title differs from its standard title, and each such section's
rewrite replaces the first occurrence of the title substring in the whole
content — not necessarily the heading line at the section's start index. -/
theorem standardize_first_occurrence_amended :
    (∀ (text : Str) (sections : List DetectedSection) (opts : List OptimizationResult),
      (standardizeSectionHeadings text sections opts).2 =
        opts ++ (sections.reverse.filter fun s => s.title ≠ s.standardTitle).map
          headingRecord) ∧
    (∀ (text : Str) (s : DetectedSection) (opts : List OptimizationResult),
      s.title ≠ s.standardTitle → List.IsInfix s.title text →
      ∃ pre post, text = pre ++ s.title ++ post ∧
        (∀ q r, text = q ++ s.title ++ r → pre.length ≤ q.length) ∧
        (standardizeSectionHeadings text [s] opts).1 = pre ++ s.standardTitle ++ post) := by
  constructor
  · intro text sections opts
    exact standardize_snd text opts sections.reverse
  · intro text s opts hne hocc
    have hfold : standardizeSectionHeadings text [s] opts =
        (replaceFirst text s.title s.standardTitle, opts ++ [headingRecord s]) := by
      unfold standardizeSectionHeadings
      simp [hne]
    rcases replaceFirst_spec s.standardTitle hocc with ⟨pre, post, heq, hmin, hrep⟩
    exact ⟨pre, post, heq, hmin, by rw [hfold]; exact hrep⟩

/-- C1 witness: the amended first-occurrence description evaluated on
`ce1` and its detected section. -/
theorem standardize_first_occurrence_amended_witness :
    ∃ pre post, ce1 = pre ++ cs1.title ++ post ∧
      (∀ q r, ce1 = q ++ cs1.title ++ r → pre.length ≤ q.length) ∧
      (standardizeSectionHeadings ce1 [cs1] []).1 = pre ++ cs1.standardTitle ++ post :=
  standardize_first_occurrence_amended.2 ce1 cs1 [] (by decide) (by decide)

/-- C2 counterexample: on a document containing both a Work Experience and
a Professional Summary section (and no Education section), the validator
emits a missing-section warning — for Education — although the claim
predicts missing-section warnings exactly when Work Experience or
Professional Summary is absent. -/
theorem validate_warns_education_not_summary :
    (∃ s ∈ detectSections ce2, s.standardTitle = "Work Experience".data) ∧
    (∃ s ∈ detectSections ce2, s.standardTitle = "Professional Summary".data) ∧
    missingSectionWarning "Education".data ∈
      validateATSCompliance ce2 (detectSections ce2) := by decide

/-- C2 (amended): the validator's essential-section kinds are Work
Experience and Education (not Professional Summary); a missing-section
warning for a kind appears exactly when no section is classified with its
standard title, the checks run in taxonomy declaration order, between the
word-count warning block and the contact-info warning block, and the
validator only returns warnings. -/
theorem validate_missing_sections_amended :
    ∀ (text : Str) (sections : List DetectedSection),
      (missingSectionWarning "Work Experience".data ∈
          validateATSCompliance text sections ↔
        ¬ ∃ s ∈ sections, s.standardTitle = "Work Experience".data) ∧
      (missingSectionWarning "Education".data ∈ validateATSCompliance text sections ↔
        ¬ ∃ s ∈ sections, s.standardTitle = "Education".data) ∧
      validateATSCompliance text sections =
        (if countWords text < 100 then [shortContentWarning] else []) ++
        ((essentialSections.filter fun k =>
            ¬ (detectedSectionTypes sections).contains k).map
          fun k => missingSectionWarning ((stdSections.lookup k).getD [])) ++
        (if emailTest text then [] else [noEmailWarning]) := by
  intro text sections
  refine ⟨?_, ?_, rfl⟩
  · exact missing_warning_iff text sections "WORK_EXPERIENCE" "Work Experience".data
      find_std_WE (by decide) (by decide) (by decide) (by decide) (by decide)
  · exact missing_warning_iff text sections "EDUCATION" "Education".data
      find_std_ED (by decide) (by decide) (by decide) (by decide) (by decide)

/-- C10: the optimizer is total over its input type (it is a Lean function
here, with no failing paths), and on an empty or whitespace-only document
the optimized word count is 0 and the short-content warning is returned in
the result's warning list. -/
theorem optimizeForATS_blank_input :
    ∀ parsedDocument : ParsedDocument,
      (∀ c ∈ parsedDocument.text, isWS c = true) →
      (optimizeForATS parsedDocument).statistics.optimizedWordCount = 0 ∧
      shortContentWarning ∈ (optimizeForATS parsedDocument).warnings := by
  intro d hws
  have hsec : detectSections d.text = [] := by
    unfold detectSections
    exact detectGo_ws 0 _ fun x hx c hc => hws c (splitOnChar_subset '\n' d.text x hx c hc)
  have hws2 : ∀ c ∈ collapseST (collapseNL d.text), isWS c = true := by
    unfold collapseST collapseNL
    exact ws_collapseSTGo _ [] (by simp) (ws_collapseNLGo 0 _ hws)
  have hbt : bulletTest optBulletChar (collapseST (collapseNL d.text)) = false := by
    unfold bulletTest
    exact bulletTestGo_ws _ _ hws2
  have e2 : (applyStructuralOptimizations d.text []).1 = collapseST (collapseNL d.text) := by
    unfold applyStructuralOptimizations
    simp [hbt]
  have w2 : ∀ c ∈ (applyStructuralOptimizations d.text []).1, isWS c = true := by
    rw [e2]; exact hws2
  have w3 : ∀ c ∈ (standardizeSectionHeadings
      (applyStructuralOptimizations d.text []).1 (detectSections d.text)
      (applyStructuralOptimizations d.text []).2).1, isWS c = true := by
    rw [hsec]; exact w2
  have e4 := ws_cleanFormatting w3
    (standardizeSectionHeadings (applyStructuralOptimizations d.text []).1
      (detectSections d.text) (applyStructuralOptimizations d.text []).2).2
  have w4 : ∀ c ∈ (cleanFormatting
      (standardizeSectionHeadings (applyStructuralOptimizations d.text []).1
        (detectSections d.text) (applyStructuralOptimizations d.text []).2).1
      (standardizeSectionHeadings (applyStructuralOptimizations d.text []).1
        (detectSections d.text) (applyStructuralOptimizations d.text []).2).2).1,
      isWS c = true := by
    rw [e4]; exact w3
  have w5 := ws_ensureSingle w4
    (cleanFormatting
      (standardizeSectionHeadings (applyStructuralOptimizations d.text []).1
        (detectSections d.text) (applyStructuralOptimizations d.text []).2).1
      (standardizeSectionHeadings (applyStructuralOptimizations d.text []).1
        (detectSections d.text) (applyStructuralOptimizations d.text []).2).2).2
  have hwc := countWords_ws w5
  exact ⟨hwc, short_mem_validate hwc _⟩

/-- C10 witness: a whitespace-only parsed document evaluated concretely. -/
theorem optimizeForATS_blank_input_witness :
    (optimizeForATS { text := "  \n\t ".data
                      metadata := { pages := 1, wordCount := 0 }
                      source := .pdf }).statistics.optimizedWordCount = 0 ∧
    shortContentWarning ∈
      (optimizeForATS { text := "  \n\t ".data
                        metadata := { pages := 1, wordCount := 0 }
                        source := .pdf }).warnings :=
  optimizeForATS_blank_input
    { text := "  \n\t ".data
      metadata := { pages := 1, wordCount := 0 }
      source := .pdf }
    (by decide)

/-- C7: every detected section's confidence lies in `[0, 1]`; the
confidence equals `1.0` exactly when the original heading
case-insensitively equals the canonical title, and otherwise it is
`0.8` (`mkRat 4 5`). -/
theorem detectSections_confidence :
    ∀ text : Str, ∀ s ∈ detectSections text,
      0 ≤ s.confidence ∧ s.confidence ≤ 1 ∧
      (s.confidence = 1 ↔ jsLower s.title = jsLower s.standardTitle) ∧
      (¬ jsLower s.title = jsLower s.standardTitle →
        s.confidence = mkRat 4 5) := by
  intro text s hs
  obtain ⟨htrim, _, key, hmk, hstd, hconf⟩ := mem_detectGo _ 0 s hs
  obtain ⟨P, hlook, hany⟩ := match_some hmk
  have hc := calculateConfidence_eq hlook hany
  have hclean : jsTrim (jsLower s.title) = jsLower s.title := by
    rw [jsTrim_lower_comm, htrim]
  rw [hconf, hc, hclean, ← hstd]
  by_cases hq : jsLower s.title = jsLower s.standardTitle
  · rw [if_pos hq]
    exact ⟨by decide, by decide, by simp [hq], fun h => absurd hq h⟩
  · rw [if_neg hq]
    refine ⟨by decide, by decide, ?_, fun _ => rfl⟩
    constructor
    · intro h1
      exact absurd h1 (by decide)
    · intro h2
      exact absurd h2 hq

/-- C7 witness: the confidence contract evaluated on the detected section
of `"SKILLS\njava"`. -/
theorem detectSections_confidence_witness :
    0 ≤ cs7.confidence ∧ cs7.confidence ≤ 1 ∧
      (cs7.confidence = 1 ↔ jsLower cs7.title = jsLower cs7.standardTitle) ∧
      (¬ jsLower cs7.title = jsLower cs7.standardTitle →
        cs7.confidence = mkRat 4 5) :=
  detectSections_confidence "SKILLS\njava".data cs7 (by decide)

/-- C6: detected sections are pairwise non-overlapping and ordered by
start line (each section ends strictly before the next begins, and every
section's start is at most its end), a section's content excludes its own
heading line, and no section's content contains any detected section's
heading line as a standalone line. -/
theorem detectSections_structure :
    ∀ text : Str,
      List.Pairwise (fun a b => a.endIndex < b.startIndex) (detectSections text) ∧
      (∀ s ∈ detectSections text, s.startIndex ≤ s.endIndex) ∧
      (∀ s ∈ detectSections text, ∀ u ∈ detectSections text,
        u.title ∉ splitOnChar '\n' s.content) := by
  intro text
  refine ⟨detectGo_pairwise _ 0, fun s hs => detectGo_start_le_end _ 0 s hs, ?_⟩
  intro s hs u hu hmem
  have hnl : ∀ x ∈ splitOnChar '\n' text, '\n' ∉ x := not_sep_mem_splitOnChar '\n' text
  have hfalse := detectGo_content _ hnl 0 s hs u.title hmem
  obtain ⟨htrim, hhead, _⟩ := mem_detectGo _ 0 u hu
  rw [htrim] at hfalse
  rw [hfalse] at hhead
  exact Bool.false_ne_true hhead

/-- C6 witness: the structure invariants evaluated on the two sections of
`ce6`. -/
theorem detectSections_structure_witness :
    cs6a.startIndex ≤ cs6a.endIndex ∧
    cs6b.title ∉ splitOnChar '\n' cs6a.content :=
  ⟨(detectSections_structure ce6).2.1 cs6a (by decide),
   (detectSections_structure ce6).2.2 cs6a (by decide) cs6b (by decide)⟩

/-- C2 witness: on an empty section list the Education warning is present,
by the amended characterization. -/
theorem validate_missing_sections_amended_witness :
    missingSectionWarning "Education".data ∈ validateATSCompliance [] [] :=
  (validate_missing_sections_amended [] []).2.1.mpr (by simp)

/-- C8 witness: the amended raw-blank characterization applied to a
whitespace-only extraction. -/
theorem parsePDF_emptyContent_iff_raw_blank_witness :
    ∃ e, parsePDFCore "  ".data = .error e :=
  (parsePDF_emptyContent_iff_raw_blank "  ".data).mpr (by decide)

/-! ## Evaluation checks for the scanners and classifiers -/

example : bulletScan optBulletChar "• ".data "· a\nx ▪b".data = "• a\nx ▪b".data := by decide

example : bulletScan optBulletChar "• ".data "\n ·  a".data = "• a".data := by decide

example : collapseST " a  b\t\tc \t d".data = " a b c d".data := by decide

example : collapseNL "a\n\n\n\nb\n\nc".data = "a\n\nb\n\nc".data := by decide

example : tabRunsToSpaces "Name\t\tTitle\tDate".data = "Name Title Date".data := by decide

example : insertPairSp isAsciiLower isAsciiUpper "aBcD".data = "a Bc D".data := by decide

example : cleanPDFText "a\nb".data = "ab".data := by decide

example : cleanPDFText "7\n".data = [] := by decide

example : countWords "  one two\n three ".data = 3 := by decide

example : countWords "  \n ".data = 0 := by decide

example : emailTest "mail me at a.b-c@dom-x.co soon".data = true := by decide

example : emailTest "no at sign dom.co".data = false := by decide

example : emailTest "bad@x".data = false := by decide

example : (detectSections "WORK HISTORY\nDid X at Y\nEDUCATION\nBS CS".data).map
    (fun s => (s.title, s.standardTitle, s.startIndex, s.endIndex)) =
    [("WORK HISTORY".data, "Work Experience".data, 0, 1),
     ("EDUCATION".data, "Education".data, 2, 2)] := by decide

example : (detectSections "Skills\njava".data).map (·.confidence) = [1] := by decide

example : (detectSections "SKILLS\njava".data).map (·.confidence) = [1] := by decide

example : (detectSections "Key Skills\njava".data).map (·.confidence) = [mkRat 4 5] := by
  decide

example :
    (optimizeForATS { text := "Name\tTitle\tDate".data
                      metadata := { pages := 1, wordCount := 3 }
                      source := .pdf }).content = "Name Title Date".data := by decide

end ClarityCV
